import Mathlib

/-!
Verification of the document RAG system (doc_indexer.py / doc_retriever.py).

The Python source is shallowly embedded: strings are lists of characters,
Python dicts are association lists (insertion ordered, update in place),
Python sets of strings are duplicate-free lists in insertion order (the
source never depends on set iteration order beyond which elements are
present), and floating point scores are modelled as rationals.  Loops that
are not structurally recursive carry an explicit fuel argument initialised
large enough to cover every terminating run of the source loop.
-/

namespace DocRag

/-- Python str.isspace characters relevant to `\s`, `strip` and friends:
space, tab, newline, carriage return, vertical tab, form feed. -/
def isPySpace (c : Char) : Bool :=
  c = ' ' || c = '\t' || c = '\n' || c = '\r' || c = '\x0b' || c = '\x0c'

/-- Python index clamping used by slices and by str.rfind: a negative index
is taken from the end of the string (and floored at 0), a positive index is
capped at the length. -/
def pyClamp (n : Nat) (x : Int) : Nat :=
  if x < 0 then (n + x).toNat else min x.toNat n

/-- Python slice `s[i:j]` over a character list. -/
def pySlice (s : List Char) (i j : Int) : List Char :=
  let a := pyClamp s.length i
  let b := pyClamp s.length j
  (s.take b).drop a

/-- True when `sub` occurs in `s` starting exactly at index `i`. -/
def matchAt (s sub : List Char) (i : Nat) : Bool :=
  (s.drop i).take sub.length = sub

/-- Python `s.rfind(sub, start, end)`: the highest index `i` with
`start <= i` and `i + len sub <= end` (after Python index clamping) at which
`sub` occurs, or `-1` when there is none. -/
def pyRfind (s sub : List Char) (start fin : Int) : Int :=
  let n := s.length
  let lo := pyClamp n start
  let hi := pyClamp n fin
  ((List.range (n + 1)).filter
      (fun i => decide (lo ≤ i) && decide (i + sub.length ≤ hi) && matchAt s sub i)).foldl
    (fun _ i => (i : Int)) (-1)

/-- Python `s.strip()`: remove leading and trailing whitespace. -/
def pyStrip (s : List Char) : List Char :=
  ((s.dropWhile isPySpace).reverse.dropWhile isPySpace).reverse

/-- One iteration of the while-loop of `DocumentIndexer._split_text`:
from the current start offset produce the emitted chunk and the next start
offset.  `c` is `chunk_size`, `o` is `chunk_overlap`. -/
def splitStep (c o : Nat) (text : List Char) (start : Int) : List Char × Int :=
  let n : Int := text.length
  let end0 := start + c
  let e :=
    if end0 < n then
      let sentenceEnd := pyRfind text ['.', ' '] start end0
      if sentenceEnd > start then sentenceEnd + 1 else end0
    else end0
  (pyStrip (pySlice text start e), e - o)

/-- Fuelled unfolding of the `_split_text` while-loop.  The loop runs while
`start < len(text)`; fuel exhaustion truncates (it is only reachable on
inputs where the Python loop does not terminate). -/
def splitTextGo (c o : Nat) (text : List Char) : Nat → Int → List (List Char)
  | 0, _ => []
  | fuel + 1, start =>
    if start < (text.length : Int) then
      let st := splitStep c o text start
      st.1 :: splitTextGo c o text fuel st.2
    else []

/-- `DocumentIndexer._split_text`: split text into chunks with overlap. -/
def splitText (c o : Nat) (s : String) : List String :=
  (splitTextGo c o s.data (s.length + c + o + 2) 0).map fun l => String.mk l

/-- Concrete text on which the splitter's progress invariant fails. -/
def c2text : String := "a. xxxxxxxxxxxxxxxxxxxx"

/-- Split a character list at every occurrence of `sep` (Python `str.split(sep)`
for a one-character separator). -/
def chSplitOn (sep : Char) : List Char → List Char → List (List Char)
  | [], acc => [acc.reverse]
  | c :: t, acc =>
    if c = sep then acc.reverse :: chSplitOn sep t [] else chSplitOn sep t (c :: acc)

/-- Whether `pfx` is a prefix of `l` (Python `str.startswith`). -/
def chStartsWith (pfx l : List Char) : Bool :=
  l.take pfx.length = pfx

/-- First index at which `sub` occurs in `l`, if any. -/
def findSub (sub : List Char) : List Char → Option Nat
  | [] => if sub.isEmpty then some 0 else none
  | c :: t =>
    if chStartsWith sub (c :: t) then some 0
    else (findSub sub t).map (· + 1)

/-- Python `str.replace(old, new)` over character lists: replace every
non-overlapping occurrence, scanning left to right.  Fuelled; the fuel is
initialised to the length of the scanned list, which each step consumes. -/
def chReplaceGo (old new : List Char) : Nat → List Char → List Char
  | _, [] => []
  | 0, l => l
  | fuel + 1, c :: t =>
    if old ≠ [] ∧ chStartsWith old (c :: t) then
      new ++ chReplaceGo old new fuel ((c :: t).drop old.length)
    else c :: chReplaceGo old new fuel t

/-- Python `str.replace` wrapper on `String`. -/
def pyReplace (s old new : String) : String :=
  String.mk (chReplaceGo old.data new.data s.data.length s.data)

/-- Python `str.title()` restricted to ASCII cased characters: the first
letter of each run of letters is uppercased, the rest lowercased. -/
def pyTitleGo : Bool → List Char → List Char
  | _, [] => []
  | prevCased, c :: t =>
    if c.isAlpha then
      (if prevCased then c.toLower else c.toUpper) :: pyTitleGo true t
    else c :: pyTitleGo false t

/-- Python `str.title()`. -/
def pyTitle (s : String) : String := String.mk (pyTitleGo false s.data)

/-- Python `dict` assignment `d[k] = v`: update in place when the key is
present, append otherwise (insertion order preserved). -/
def dictInsert {α : Type} (k : String) (v : α) : List (String × α) → List (String × α)
  | [] => [(k, v)]
  | (k0, v0) :: t => if k0 = k then (k0, v) :: t else (k0, v0) :: dictInsert k v t

/-- Python `dict` lookup `d.get(k)` / `d[k]` on an association list. -/
def dictGet {α : Type} (k : String) : List (String × α) → Option α
  | [] => none
  | (k0, v0) :: t => if k0 = k then some v0 else dictGet k t

/-- Keys of an association-list dictionary. -/
def keys {α : Type} (d : List (String × α)) : List String := d.map Prod.fst

/-- Python `pathlib` components of a path string: split on `/`, dropping
empty components and `.`. -/
def pathComps (s : String) : List String :=
  ((chSplitOn '/' s.data []).map fun l => String.mk l).filter fun c => c ≠ "" ∧ c ≠ "."

/-- Components of `Path(p).parent` for a relative path string `p`. -/
def parentComps (p : String) : List String := (pathComps p).dropLast

/-- Join resolved absolute components back into the string produced by
`str(resolved.relative_to(root))`; an empty list renders as `.`. -/
def joinPath (comps : List String) : String :=
  match comps with
  | [] => "."
  | _ => String.intercalate "/" comps

/-- Python `Path.resolve()` component normalisation: `..` pops one component
and is a no-op at the filesystem root; other components are appended. -/
def resolveComps (base : List String) (comps : List String) : List String :=
  comps.foldl (fun acc c => if c = ".." then acc.dropLast else acc ++ [c]) base

/-- Resolution step of `DocumentIndexer._extract_links` for one link target:
`(Path(current_file).parent / link_path).resolve()` — note the base is the
process working directory `cwd` because `current_file` is a corpus-relative
path — followed by `relative_to(docs_dir.resolve())` (components `rootAbs`),
whose failure drops the link. -/
def resolveLink (cwd rootAbs : List String) (currentFile link : String) : Option String :=
  let base := if chStartsWith ['/'] link.data then [] else cwd ++ parentComps currentFile
  let res := resolveComps base (pathComps link)
  if rootAbs.isPrefixOf res then some (joinPath (res.drop rootAbs.length)) else none

/-- Filtering steps of `DocumentIndexer._extract_links` for one raw markdown
link target: external links and anchor-only links are skipped, an anchor
suffix is stripped, then the target is resolved. -/
def linkKeep (cwd rootAbs : List String) (currentFile target : String) : Option String :=
  if chStartsWith "http://".data target.data then none
  else if chStartsWith "https://".data target.data then none
  else if chStartsWith ['#'] target.data then none
  else resolveLink cwd rootAbs currentFile (String.mk (target.data.takeWhile (· ≠ '#')))

/-- Scanner for the markdown link regex `\[([^\]]+)\]\(([^\)]+)\)`:
at each position try a match (nonempty bracket text, then `](`, then a
nonempty parenthesised target); on failure advance one character, on success
continue after the closing parenthesis.  Returns the (text, target) pairs. -/
def linkScan : Nat → List Char → List (String × String)
  | 0, _ => []
  | _, [] => []
  | fuel + 1, '[' :: tl =>
    let t1 := tl.takeWhile (· ≠ ']')
    let r1 := tl.dropWhile (· ≠ ']')
    match t1, r1 with
    | _ :: _, ']' :: '(' :: r2 =>
      let t2 := r2.takeWhile (· ≠ ')')
      let r3 := r2.dropWhile (· ≠ ')')
      match t2, r3 with
      | _ :: _, ')' :: r4 => (String.mk t1, String.mk t2) :: linkScan fuel r4
      | _, _ => linkScan fuel tl
    | _, _ => linkScan fuel tl
  | fuel + 1, _ :: tl => linkScan fuel tl

/-- All raw markdown links of a document body, in scan order. -/
def rawLinks (content : List Char) : List (String × String) :=
  linkScan (content.length + 1) content

/-- Python `set.add` modelled on an insertion-ordered duplicate-free list:
membership is what matters, iteration order is unspecified in the source and
fixed to insertion order here. -/
def setAdd (s : List String) (x : String) : List String :=
  if x ∈ s then s else s ++ [x]

/-- Python `set(xs)` for a list of strings. -/
def setFromList (l : List String) : List String := l.foldl setAdd []

/-- `DocumentIndexer._extract_links`: the set of kept link targets of a
document body. -/
def extractLinks (cwd rootAbs : List String) (content : String) (currentFile : String) :
    List String :=
  (rawLinks content.data).foldl
    (fun acc tp =>
      match linkKeep cwd rootAbs currentFile tp.2 with
      | some p => setAdd acc p
      | none => acc)
    []

/-- Backtracking of `\s+` in `^#\s+(.+)$` (and in the section regex): given
the text after the run prefix, find the largest `w ≥ 1`, at most the length
of the maximal whitespace run, such that the character at offset `w` exists
and is not a newline; the capture is then the newline-free run from there. -/
def viableCapture (rest : List Char) : Nat → Option (List Char)
  | 0 => none
  | w + 1 =>
    match rest.drop (w + 1) with
    | c :: t => if c ≠ '\n' then some ((c :: t).takeWhile (· ≠ '\n')) else viableCapture rest w
    | [] => viableCapture rest w

/-- Attempt of the title regex `^#\s+(.+)$` at one line start. -/
def titleAt (l : List Char) : Option (List Char) :=
  match l with
  | '#' :: rest => viableCapture rest (rest.takeWhile isPySpace).length
  | _ => none

/-- Search of the title regex over all line starts (re.MULTILINE). -/
def titleSearch : Nat → List Char → Option (List Char)
  | 0, _ => none
  | _, [] => none
  | fuel + 1, l =>
    match titleAt l with
    | some cap => some cap
    | none =>
      match l.dropWhile (· ≠ '\n') with
      | [] => none
      | _ :: t => titleSearch fuel t

/-- `DocumentIndexer._extract_title`: first `# ` heading, else the filename
with `.md`, `_`, `-` rewritten and title-cased. -/
def extractTitle (content : String) (filename : String) : String :=
  match titleSearch (content.data.length + 1) content.data with
  | some cap => String.mk (pyStrip cap)
  | none => pyTitle (pyReplace (pyReplace (pyReplace filename ".md" "") "_" " ") "-" " ")

/-- Parse of one frontmatter line by `DocumentIndexer._extract_metadata`:
lines containing `:` contribute a stripped key/value pair. -/
def frontmatterLine (md : List (String × String)) (line : List Char) : List (String × String) :=
  if line.any (· = ':') then
    let key := line.takeWhile (· ≠ ':')
    let value := (line.dropWhile (· ≠ ':')).drop 1
    dictInsert (String.mk (pyStrip key)) (String.mk (pyStrip value)) md
  else md

/-- `DocumentIndexer._extract_metadata`: YAML-ish frontmatter given by
`^---\n(.*?)\n---` when the content starts with `---`; the non-greedy body
ends at the first `\n---` after the opening marker. -/
def extractMetadata (content : String) : List (String × String) :=
  match content.data with
  | '-' :: '-' :: '-' :: '\n' :: rest =>
    match findSub ['\n', '-', '-', '-'] rest with
    | some k => ((chSplitOn '\n' (rest.take k) []).foldl frontmatterLine [])
    | none => []
  | _ => []

/-- Final path component, `Path(p).name`, used as the title fallback input. -/
def fileName (p : String) : String := (pathComps p).getLastD p

/-- DocumentNode of doc_indexer.py: a document in the graph. -/
structure DocumentNode where
  file_path : String
  title : String
  content : String
  outgoing_links : List String
  incoming_links : List String
  metadata : List (String × String)
  deriving DecidableEq

/-- First pass of `DocumentIndexer._build_document_graph`: create one node
per file with empty link sets; `metadata['file_path']` is set after
frontmatter extraction.  The corpus is the list of (relative path, content)
pairs produced by globbing, inserted in order into the graph dict. -/
def buildNodes (corpus : List (String × String)) : List (String × DocumentNode) :=
  corpus.foldl
    (fun g pc =>
      dictInsert pc.1
        { file_path := pc.1
          title := extractTitle pc.2 (fileName pc.1)
          content := pc.2
          outgoing_links := []
          incoming_links := []
          metadata := dictInsert "file_path" pc.1 (extractMetadata pc.2) }
        g)
    []

/-- Incoming-link update of the second graph pass: if the link target `t`
is a node, add the current document `rel` to its incoming set. -/
def addIncoming (rel : String) (gx : List (String × DocumentNode)) (t : String) :
    List (String × DocumentNode) :=
  match dictGet t gx with
  | some tn => dictInsert t { tn with incoming_links := setAdd tn.incoming_links rel } gx
  | none => gx

/-- Second pass of `DocumentIndexer._build_document_graph` at one key:
store the extracted links as the node's outgoing set, then add the current
key to the incoming set of every link target that is itself a node. -/
def linkPassStep (cwd rootAbs : List String) (g : List (String × DocumentNode))
    (rel : String) : List (String × DocumentNode) :=
  match dictGet rel g with
  | none => g
  | some node =>
    let links := extractLinks cwd rootAbs node.content rel
    let g2 := dictInsert rel { node with outgoing_links := links } g
    links.foldl (addIncoming rel) g2

/-- `DocumentIndexer._build_document_graph`: nodes, then links. -/
def buildDocumentGraph (cwd rootAbs : List String) (corpus : List (String × String)) :
    List (String × DocumentNode) :=
  let g1 := buildNodes corpus
  (keys g1).foldl (linkPassStep cwd rootAbs) g1

/-- Corpus exhibiting a stored link to a non-existent target. -/
def corpusC1 : List (String × String) := [("a.md", "[x](b.md)")]

/-- Serialized form of one node in `doc_graph.json`: link sets become lists
and the raw content is omitted. -/
structure SerializedNode where
  title : String
  file_path : String
  outgoing_links : List String
  incoming_links : List String
  metadata : List (String × String)
  deriving DecidableEq

/-- `DocumentIndexer._save_graph`: serialize every node, keyed by path;
`list(node.outgoing_links)` enumerates the set in its iteration order. -/
def saveGraph (g : List (String × DocumentNode)) : List (String × SerializedNode) :=
  g.map fun pn =>
    (pn.1,
      { title := pn.2.title
        file_path := pn.2.file_path
        outgoing_links := pn.2.outgoing_links
        incoming_links := pn.2.incoming_links
        metadata := pn.2.metadata })

/-- `DocumentIndexer.load_graph`: rebuild nodes from the serialized map with
empty content and the link lists turned back into sets. -/
def loadGraph (s : List (String × SerializedNode)) : List (String × DocumentNode) :=
  s.map fun pd =>
    (pd.1,
      { file_path := pd.2.file_path
        title := pd.2.title
        content := ""
        outgoing_links := setFromList pd.2.outgoing_links
        incoming_links := setFromList pd.2.incoming_links
        metadata := pd.2.metadata })

/-- Backtracking of `\s+` in the section regex `\n##\s+(.+)\n`: like
`viableCapture`, but the newline-free capture must additionally be closed by
a newline inside the text; returns the capture and the remainder after the
consumed closing newline. -/
def viableSection (tl : List Char) : Nat → Option (List Char × List Char)
  | 0 => none
  | w + 1 =>
    match tl.drop (w + 1) with
    | c :: t =>
      if c ≠ '\n' ∧ (c :: t).any (· = '\n') then
        some ((c :: t).takeWhile (· ≠ '\n'), ((c :: t).dropWhile (· ≠ '\n')).drop 1)
      else viableSection tl w
    | [] => viableSection tl w

/-- Scanner for `re.split(r'\n##\s+(.+)\n', content)`: at every position
starting with `\n##` try the section pattern (whitespace run, nonempty
newline-free capture, closing newline); on a match the preceding segment and
the capture are emitted and scanning resumes after the consumed newline, on
failure scanning advances one character.  Returns the alternating
segment/capture list that `re.split` produces. -/
def secScan : Nat → List Char → List Char → List (List Char)
  | 0, seg, _ => [seg.reverse]
  | _ + 1, seg, [] => [seg.reverse]
  | fuel + 1, seg, '\n' :: '#' :: '#' :: tl =>
    match viableSection tl (tl.takeWhile isPySpace).length with
    | some capRest => seg.reverse :: capRest.1 :: secScan fuel [] capRest.2
    | none => secScan fuel ('\n' :: seg) ('#' :: '#' :: tl)
  | fuel + 1, seg, c :: tl => secScan fuel (c :: seg) tl

/-- Pairing step of `DocumentIndexer._split_by_sections`: after the leading
segment, consecutive (capture, segment) pairs become (heading, body)
sections, both stripped. -/
def pairUp : List (List Char) → List (String × String)
  | cap :: seg :: rest => (String.mk (pyStrip cap), String.mk (pyStrip seg)) :: pairUp rest
  | _ => []

/-- `DocumentIndexer._split_by_sections`: split content by `##` headings;
a nonempty stripped preamble becomes an untitled section. -/
def splitBySections (content : String) : List (String × String) :=
  match secScan (content.data.length + 1) [] content.data with
  | [] => []
  | s0 :: rest =>
    (if String.mk (pyStrip s0) ≠ "" then [("", String.mk (pyStrip s0))] else []) ++ pairUp rest

/-- Document of doc_indexer.py: one retrieval chunk awaiting embedding. -/
structure Document where
  id : String
  content : String
  metadata : List (String × String)
  embedding : Option (List ℚ) := none
  deriving DecidableEq

/-- `DocumentIndexer._chunk_document`: chunk a node section by section,
splitting oversized sections with `_split_text`, prefixing title and section
heading, and assigning the deterministic chunk id. -/
def chunkDocument (c o : Nat) (node : DocumentNode) : List Document :=
  (splitBySections node.content).enum.flatMap fun isec =>
    let parts :=
      if isec.2.2.length ≤ c then [isec.2.2] else splitText c o isec.2.2
    parts.enum.map fun jtxt =>
      let chunkId := node.file_path ++ "__chunk_" ++ toString isec.1 ++ "_" ++ toString jtxt.1
      { id := chunkId
        content :=
          "# " ++ node.title ++ "\n\n" ++
            (if isec.2.1 ≠ "" then "## " ++ isec.2.1 ++ "\n\n" else "") ++ jtxt.2
        metadata :=
          dictInsert "doc_title" node.title
            (dictInsert "section" (if isec.2.1 ≠ "" then isec.2.1 else "Introduction")
              (dictInsert "chunk_id" chunkId node.metadata)) }

/-- Accumulator of the per-document loop of `DocumentIndexer.index_documents`:
the staged chunks and the in-memory content hash map. -/
structure StageResult where
  chunks : List Document
  hashes : List (String × String)
  deriving DecidableEq

/-- One iteration of the per-document loop of
`DocumentIndexer.index_documents`: a document whose digest matches the hash
map entry is skipped (unless forced); otherwise its chunks are staged and
its hash entry updated. -/
def stageStep (hashF : String → String) (c o : Nat) (force : Bool) (st : StageResult)
    (pn : String × DocumentNode) : StageResult :=
  let h := hashF pn.2.content
  if force = false ∧ dictGet pn.1 st.hashes = some h then st
  else { chunks := st.chunks ++ chunkDocument c o pn.2, hashes := dictInsert pn.1 h st.hashes }

/-- Per-document loop of `DocumentIndexer.index_documents` over the whole
graph, starting from the persisted hash map. -/
def stageDocs (hashF : String → String) (c o : Nat) (force : Bool)
    (persisted : List (String × String)) (g : List (String × DocumentNode)) : StageResult :=
  g.foldl (stageStep hashF c o force) { chunks := [], hashes := persisted }

/-- `DocumentIndexer._embed_documents` with the default batch size 100:
issue one Embedding Service call per batch; a failing call aborts the whole
run by propagating the error.  Returns the embedded documents and the number
of calls issued.  Fuelled by the list length (each step drops 100 > 0
documents). -/
def embedDocumentsGo (embedBatch : List String → Except String (List (List ℚ))) :
    Nat → List Document → Except String (List Document × Nat)
  | _, [] => .ok ([], 0)
  | 0, docs => .ok (docs, 0)
  | fuel + 1, docs =>
    let batch := docs.take 100
    match embedBatch (batch.map fun d => d.content) with
    | .error e => .error e
    | .ok vecs =>
      let assigned := batch.enum.map fun idoc =>
        match vecs[idoc.1]? with
        | some v => { idoc.2 with embedding := some v }
        | none => idoc.2
      match embedDocumentsGo embedBatch fuel (docs.drop 100) with
      | .error e => .error e
      | .ok rk => .ok (assigned ++ rk.1, rk.2 + 1)

/-- `DocumentIndexer._embed_documents` wrapper. -/
def embedDocuments (embedBatch : List String → Except String (List (List ℚ)))
    (docs : List Document) : Except String (List Document × Nat) :=
  embedDocumentsGo embedBatch docs.length docs

/-- Outcome of one successful `DocumentIndexer.index_documents` run. -/
structure IndexResult where
  embedded : List Document
  embedCalls : Nat
  savedHashes : List (String × String)
  savedGraph : List (String × SerializedNode)
  graph : List (String × DocumentNode)
  deriving DecidableEq

/-- `DocumentIndexer.index_documents`: rebuild the graph from the corpus,
stage changed documents, embed the staged chunks in batches, and only then
persist the updated hash map and the graph snapshot.  An embedding failure
propagates before anything is persisted. -/
def indexDocuments (hashF : String → String)
    (embedBatch : List String → Except String (List (List ℚ)))
    (cwd rootAbs : List String) (c o : Nat) (corpus : List (String × String))
    (persisted : List (String × String)) (force : Bool) : Except String IndexResult :=
  let g := buildDocumentGraph cwd rootAbs corpus
  let st := stageDocs hashF c o force persisted g
  match embedDocuments embedBatch st.chunks with
  | .error e => .error e
  | .ok dk =>
    .ok
      { embedded := dk.1
        embedCalls := dk.2
        savedHashes := st.hashes
        savedGraph := saveGraph g
        graph := g }

/-- Durable state of the index directory: the persisted content hash map
and the persisted graph snapshot (absent before any successful run). -/
structure PersistedState where
  hashes : List (String × String)
  graphSnap : Option (List (String × SerializedNode))
  deriving DecidableEq

/-- Effect of one `index_documents` invocation on the durable state: a
successful run rewrites both files; a failed run leaves them untouched. -/
def runIndex (hashF : String → String)
    (embedBatch : List String → Except String (List (List ℚ)))
    (cwd rootAbs : List String) (c o : Nat) (corpus : List (String × String))
    (force : Bool) (st : PersistedState) : PersistedState :=
  match indexDocuments hashF embedBatch cwd rootAbs c o corpus st.hashes force with
  | .ok r => { hashes := r.savedHashes, graphSnap := some r.savedGraph }
  | .error _ => st

/-- Retriever-side graph node, as read back from `doc_graph.json`: the link
sets are JSON lists. -/
structure GraphNode where
  outgoing_links : List String
  incoming_links : List String
  deriving DecidableEq

/-- Metadata attached to a chunk in the vector index.  `file_path` and
`doc_title` are indexed directly by the retriever (always present on chunks
written by the indexer), `section` and `chunk_id` are read with `.get`. -/
structure ChunkMeta where
  file_path : String
  doc_title : String
  sectionName : Option String
  chunk_id : Option String
  deriving DecidableEq

/-- One chunk stored in the vector index. -/
structure StoredChunk where
  id : String
  document : String
  metadata : ChunkMeta
  deriving DecidableEq

/-- RetrievedDoc of doc_retriever.py. -/
structure RetrievedDoc where
  content : String
  file_path : String
  doc_title : String
  sectionName : String
  score : ℚ
  retrieval_method : String
  metadata : ChunkMeta
  deriving DecidableEq

/-- `collection.get(where={"file_path": p}, limit=n)`: the first `n` chunks
of the store whose metadata path equals `p`. -/
def collectionGet (store : List StoredChunk) (p : String) (n : Nat) : List StoredChunk :=
  (store.filter fun ch => ch.metadata.file_path = p).take n

/-- One neighbour-expansion step of `DocumentRetriever._graph_traversal`:
an unvisited linked document is marked visited, queued, and recorded with
its hop count; a visited one is ignored. -/
def expandLinks (links : List String) (h1 : Nat)
    (st : List String × List (String × Nat) × List (String × Nat)) :
    List String × List (String × Nat) × List (String × Nat) :=
  links.foldl
    (fun acc l =>
      if l ∈ acc.1 then acc
      else (acc.1 ++ [l], acc.2.1 ++ [(l, h1)], acc.2.2 ++ [(l, h1)]))
    st

/-- While-loop of `DocumentRetriever._graph_traversal`: pop the queue front
while the queue is nonempty and fewer than `maxRes` documents are recorded;
entries at `maxHops` or beyond, and documents absent from the graph, are
popped without expansion.  Fuelled; `travFuel` below always suffices. -/
def travGo (g : List (String × GraphNode)) (maxHops maxRes : Nat) :
    Nat → List (String × Nat) → List String → List (String × Nat) → List (String × Nat)
  | 0, _, _, acc => acc
  | _ + 1, [], _, acc => acc
  | fuel + 1, (p, h) :: qt, vis, acc =>
    if maxRes ≤ acc.length then acc
    else if maxHops ≤ h then travGo g maxHops maxRes fuel qt vis acc
    else
      match dictGet p g with
      | none => travGo g maxHops maxRes fuel qt vis acc
      | some node =>
        let st1 := expandLinks node.outgoing_links (h + 1) (vis, qt, acc)
        let st2 := expandLinks node.incoming_links (h + 1) st1
        travGo g maxHops maxRes fuel st2.2.1 st2.1 st2.2.2

/-- Fuel bound for the traversal loop: every pop consumes one queue entry,
and at most `seeds.length` initial entries plus one entry per link-list
element are ever queued. -/
def travFuel (g : List (String × GraphNode)) (seeds : List String) : Nat :=
  seeds.length +
    g.foldl (fun a pn => a + pn.2.outgoing_links.length + pn.2.incoming_links.length) 0 + 1

/-- Document/hop list collected by `DocumentRetriever._graph_traversal`
(`related_docs`), starting from the seed paths at hop 0 with the seeds
pre-visited. -/
def relatedDocs (g : List (String × GraphNode)) (seeds : List String)
    (maxHops maxRes : Nat) : List (String × Nat) :=
  travGo g maxHops maxRes (travFuel g seeds) (seeds.map fun s => (s, 0)) seeds []

/-- Chunk-fetch phase of `DocumentRetriever._graph_traversal`: for the first
`maxRes` recorded documents fetch up to 3 chunks each, scored `1/(hop+1)`
and tagged `graph`. -/
def graphTraversal (g : List (String × GraphNode)) (seeds : List String)
    (maxHops maxRes : Nat) (store : List StoredChunk) : List RetrievedDoc :=
  ((relatedDocs g seeds maxHops maxRes).take maxRes).flatMap fun ph =>
    (collectionGet store ph.1 3).map fun ch =>
      { content := ch.document
        file_path := ch.metadata.file_path
        doc_title := ch.metadata.doc_title
        sectionName := ch.metadata.sectionName.getD ""
        score := 1 / ((ph.2 : ℚ) + 1)
        retrieval_method := "graph"
        metadata := ch.metadata }

/-- Chunk id used for deduplication: `doc.metadata.get('chunk_id', '')`. -/
def chunkId (d : RetrievedDoc) : String := d.metadata.chunk_id.getD ""

/-- Graph-result transformation of `DocumentRetriever._combine_results`:
tag `hybrid` and apply the fixed 0.8 penalty. -/
def hybridize (d : RetrievedDoc) : RetrievedDoc :=
  { d with retrieval_method := "hybrid", score := d.score * (4 / 5) }

/-- One deduplication pass of `DocumentRetriever._combine_results`: keep the
first occurrence of each unseen chunk id, transformed by `tr`, threading the
seen-id set. -/
def dedupPass (tr : RetrievedDoc → RetrievedDoc) :
    List RetrievedDoc → List String → List String × List RetrievedDoc
  | [], seen => (seen, [])
  | d :: t, seen =>
    if chunkId d ∈ seen then dedupPass tr t seen
    else
      let rec2 := dedupPass tr t (chunkId d :: seen)
      (rec2.1, tr d :: rec2.2)

/-- `DocumentRetriever._combine_results`: semantic results first (never
overwritten), then graph results with unseen chunk ids, penalised and
retagged. -/
def combineResults (semanticResults graphResults : List RetrievedDoc) : List RetrievedDoc :=
  let s1 := dedupPass id semanticResults []
  let s2 := dedupPass hybridize graphResults s1.1
  s1.2 ++ s2.2

/-- Stable insertion into a list sorted by descending score (ties keep the
existing element first), matching Python's stable `sorted(reverse=True)`. -/
def insertDesc (d : RetrievedDoc) : List RetrievedDoc → List RetrievedDoc
  | [] => [d]
  | x :: t => if d.score ≤ x.score then x :: insertDesc d t else d :: x :: t

/-- `DocumentRetriever._rerank`: sort by score descending, keep `top_k`. -/
def rerank (docs : List RetrievedDoc) (topK : Nat) : List RetrievedDoc :=
  (docs.foldl (fun acc d => insertDesc d acc) []).take topK

/-- `DocumentRetriever.retrieve` from the semantic-search results onward
(the Embedding Service and the vector query are collaborators, so the
semantic result list is a parameter): graph traversal is seeded by the
semantic results' paths and bounded by `2 * top_k`. -/
def retrieve (semanticResults : List RetrievedDoc) (g : List (String × GraphNode))
    (store : List StoredChunk) (topK : Nat) (useGraph : Bool) (maxHops : Nat) :
    List RetrievedDoc :=
  if useGraph = false then semanticResults
  else
    rerank
      (combineResults semanticResults
        (graphTraversal g (semanticResults.map fun r => r.file_path) maxHops (topK * 2) store))
      topK

/-- Reachability in at most the given number of undirected link hops from a
seed: hop 0 is a seed, hop `h+1` follows an outgoing or incoming link of a
document reachable at hop `h`. -/
inductive Reaches (g : List (String × GraphNode)) (seeds : List String) : Nat → String → Prop
  | seed (p : String) (hp : p ∈ seeds) : Reaches g seeds 0 p
  | step (p q : String) (h : Nat) (node : GraphNode) (hr : Reaches g seeds h p)
      (hl : dictGet p g = some node)
      (hq : q ∈ node.outgoing_links ∨ q ∈ node.incoming_links) : Reaches g seeds (h + 1) q

/-! Concrete fixtures used by counterexamples and witnesses. -/

/-- Two-document corpus with one internal link, for roundtrip witnesses. -/
def corpusAB : List (String × String) := [("a.md", "[x](b.md)"), ("b.md", "# B\nbody")]

/-- Retriever graph with one seed document linking to two others. -/
def gEx : List (String × GraphNode) :=
  [("a", { outgoing_links := ["b", "c"], incoming_links := [] }),
   ("b", { outgoing_links := [], incoming_links := ["a"] }),
   ("c", { outgoing_links := [], incoming_links := ["a"] })]

/-- Vector store holding three chunks for each of the documents b and c. -/
def storeEx : List StoredChunk :=
  [{ id := "b0", document := "bzero",
     metadata := { file_path := "b", doc_title := "B", sectionName := none, chunk_id := some "b0" } },
   { id := "b1", document := "bone",
     metadata := { file_path := "b", doc_title := "B", sectionName := none, chunk_id := some "b1" } },
   { id := "b2", document := "btwo",
     metadata := { file_path := "b", doc_title := "B", sectionName := none, chunk_id := some "b2" } },
   { id := "c0", document := "czero",
     metadata := { file_path := "c", doc_title := "C", sectionName := none, chunk_id := some "c0" } },
   { id := "c1", document := "cone",
     metadata := { file_path := "c", doc_title := "C", sectionName := none, chunk_id := some "c1" } },
   { id := "c2", document := "ctwo",
     metadata := { file_path := "c", doc_title := "C", sectionName := none, chunk_id := some "c2" } }]

/-- Semantic result used by combine/retrieve witnesses. -/
def semEx : RetrievedDoc :=
  { content := "sem", file_path := "a", doc_title := "A", sectionName := "", score := 9 / 10,
    retrieval_method := "semantic",
    metadata := { file_path := "a", doc_title := "A", sectionName := none, chunk_id := some "x0" } }

/-- Graph result sharing `semEx`'s chunk id, with a different score. -/
def graphDupEx : RetrievedDoc :=
  { content := "dup", file_path := "b", doc_title := "B", sectionName := "", score := 1 / 2,
    retrieval_method := "graph",
    metadata := { file_path := "b", doc_title := "B", sectionName := none, chunk_id := some "x0" } }

/-- Graph result with a fresh chunk id. -/
def graphNewEx : RetrievedDoc :=
  { content := "new", file_path := "b", doc_title := "B", sectionName := "", score := 1 / 2,
    retrieval_method := "graph",
    metadata := { file_path := "b", doc_title := "B", sectionName := none, chunk_id := some "b0" } }

/-! Association-list dictionary lemmas. -/

theorem keys_nil {α : Type} : keys ([] : List (String × α)) = [] := rfl

theorem keys_cons {α : Type} (kv : String × α) (t : List (String × α)) :
    keys (kv :: t) = kv.1 :: keys t := rfl

theorem lookup_dictInsert_self {α : Type} (k : String) (v : α) (d : List (String × α)) :
    dictGet k (dictInsert k v d) = some v := by
  induction d with
  | nil => simp [dictInsert, dictGet]
  | cons kv t ih =>
    obtain ⟨k0, v0⟩ := kv
    by_cases h : k0 = k
    · subst h; simp [dictInsert, dictGet]
    · simp [dictInsert, h, dictGet, ih]

theorem lookup_dictInsert_ne {α : Type} {k k' : String} (hne : k' ≠ k) (v : α)
    (d : List (String × α)) :
    dictGet k' (dictInsert k v d) = dictGet k' d := by
  induction d with
  | nil => simp [dictInsert, dictGet, Ne.symm hne]
  | cons kv t ih =>
    obtain ⟨k0, v0⟩ := kv
    by_cases h : k0 = k
    · subst h; simp [dictInsert, dictGet, Ne.symm hne]
    · by_cases h2 : k0 = k'
      · subst h2; simp [dictInsert, h, dictGet]
      · simp [dictInsert, h, dictGet, h2, ih]

theorem lookup_some_mem_keys {α : Type} {k : String} {v : α} {d : List (String × α)}
    (h : dictGet k d = some v) : k ∈ keys d := by
  induction d with
  | nil => simp [dictGet] at h
  | cons kv t ih =>
    rw [dictGet] at h
    by_cases he : kv.1 = k
    · simp [keys_cons, he]
    · rw [if_neg he] at h
      simp only [keys_cons, List.mem_cons]
      exact Or.inr (ih h)

theorem mem_keys_exists_lookup {α : Type} {k : String} {d : List (String × α)}
    (hmem : k ∈ keys d) : ∃ v, dictGet k d = some v := by
  induction d with
  | nil => simp [keys_nil] at hmem
  | cons kv t ih =>
    by_cases h : kv.1 = k
    · exact ⟨kv.2, by simp [dictGet, h]⟩
    · simp only [keys_cons, List.mem_cons] at hmem
      rcases hmem with hmem | hmem
      · exact absurd hmem.symm h
      · obtain ⟨v, hv⟩ := ih hmem
        exact ⟨v, by simp [dictGet, h, hv]⟩

theorem keys_dictInsert_of_mem {α : Type} {k : String} {d : List (String × α)}
    (hmem : k ∈ keys d) (v : α) : keys (dictInsert k v d) = keys d := by
  induction d with
  | nil => simp [keys_nil] at hmem
  | cons kv t ih =>
    by_cases h : kv.1 = k
    · simp [dictInsert, h, keys_cons]
    · simp only [keys_cons, List.mem_cons] at hmem
      rcases hmem with hmem | hmem
      · exact absurd hmem.symm h
      · simp only [dictInsert, if_neg h, keys_cons, ih hmem]

theorem mem_keys_dictInsert {α : Type} (k k' : String) (v : α) (d : List (String × α)) :
    k' ∈ keys (dictInsert k v d) ↔ k' ∈ keys d ∨ k' = k := by
  induction d with
  | nil => simp [dictInsert, keys_cons, keys_nil]
  | cons kv t ih =>
    obtain ⟨k0, v0⟩ := kv
    by_cases h : k0 = k
    · subst h
      simp only [dictInsert, if_pos, keys_cons, List.mem_cons]
      tauto
    · simp only [dictInsert, if_neg h, keys_cons, List.mem_cons]
      rw [ih]
      tauto

theorem keys_nodup_dictInsert {α : Type} {d : List (String × α)} (hd : (keys d).Nodup)
    (k : String) (v : α) : (keys (dictInsert k v d)).Nodup := by
  induction d with
  | nil => simp [dictInsert, keys_cons, keys_nil]
  | cons kv t ih =>
    obtain ⟨k0, v0⟩ := kv
    simp only [keys_cons, List.nodup_cons] at hd
    by_cases h : k0 = k
    · subst h
      simp only [dictInsert, if_pos, keys_cons, List.nodup_cons]
      exact hd
    · have ht := ih hd.2
      have hnot : k0 ∉ keys (dictInsert k v t) := by
        intro hmem
        rcases (mem_keys_dictInsert k k0 v t).mp hmem with h1 | h1
        · exact hd.1 h1
        · exact h h1
      simp only [dictInsert, if_neg h, keys_cons, List.nodup_cons]
      exact ⟨hnot, ht⟩

/-! Set-as-list lemmas. -/

theorem mem_setAdd {x a : String} {s : List String} : x ∈ setAdd s a ↔ x ∈ s ∨ x = a := by
  by_cases h : a ∈ s
  · simp only [setAdd, if_pos h]
    constructor
    · exact Or.inl
    · rintro (hx | rfl)
      · exact hx
      · exact h
  · simp [setAdd, if_neg h]

theorem nodup_setAdd {s : List String} (hs : s.Nodup) (a : String) : (setAdd s a).Nodup := by
  by_cases h : a ∈ s
  · simpa [setAdd, if_pos h] using hs
  · rw [setAdd, if_neg h]
    simpa [List.nodup_append, hs] using h

theorem mem_foldl_setAdd (l : List String) :
    ∀ (acc : List String) (x : String), x ∈ l.foldl setAdd acc ↔ x ∈ acc ∨ x ∈ l := by
  induction l with
  | nil => simp
  | cons a t ih =>
    intro acc x
    rw [List.foldl_cons, ih, mem_setAdd]
    simp only [List.mem_cons]
    tauto

theorem mem_setFromList {x : String} {l : List String} : x ∈ setFromList l ↔ x ∈ l := by
  rw [setFromList, mem_foldl_setAdd]
  simp

theorem foldl_setAdd_of_nodup (l : List String) :
    ∀ acc : List String, (acc ++ l).Nodup → l.foldl setAdd acc = acc ++ l := by
  induction l with
  | nil => simp
  | cons a t ih =>
    intro acc hnd
    have ha : a ∉ acc := by
      intro hmem
      have : ¬ (acc ++ a :: t).Nodup := by
        intro hcon
        exact (List.disjoint_of_nodup_append hcon) hmem (List.mem_cons_self a t)
      exact this hnd
    rw [List.foldl_cons, setAdd, if_neg ha, ih (acc ++ [a]) (by simpa using hnd)]
    simp

theorem setFromList_eq_self {l : List String} (h : l.Nodup) : setFromList l = l := by
  simpa using foldl_setAdd_of_nodup l [] (by simpa using h)

/-- Lookups commute with mapping over dictionary values. -/
theorem dictGet_map {α β : Type} (f : α → β) (d : List (String × α)) (p : String) :
    dictGet p (d.map fun kv => (kv.1, f kv.2)) = (dictGet p d).map f := by
  induction d with
  | nil => simp [dictGet]
  | cons kv t ih =>
    by_cases h : kv.1 = p
    · simp [dictGet, h]
    · simp [dictGet, h, ih]

/-! Extraction soundness: every stored outgoing link arises from a raw
markdown link whose target survives filtering and resolution. -/

theorem extractLinks_foldl_sound (cwd rootAbs : List String) (cf : String)
    (raws : List (String × String)) :
    ∀ (acc : List String) (l : String),
      l ∈ raws.foldl
          (fun acc tp =>
            match linkKeep cwd rootAbs cf tp.2 with
            | some p => setAdd acc p
            | none => acc)
          acc →
      l ∈ acc ∨ ∃ tp ∈ raws, linkKeep cwd rootAbs cf tp.2 = some l := by
  induction raws with
  | nil => intro acc l h; exact Or.inl h
  | cons tp raws ih =>
    intro acc l h
    rw [List.foldl_cons] at h
    rcases ih _ l h with hacc | ⟨tp2, htp2, hk⟩
    · rcases hs : linkKeep cwd rootAbs cf tp.2 with _ | p
      · rw [hs] at hacc
        exact Or.inl hacc
      · rw [hs] at hacc
        rcases mem_setAdd.mp hacc with hacc | rfl
        · exact Or.inl hacc
        · exact Or.inr ⟨tp, List.mem_cons_self tp raws, hs⟩
    · exact Or.inr ⟨tp2, List.mem_cons_of_mem tp htp2, hk⟩

theorem extractLinks_sound {cwd rootAbs : List String} {content cf l : String}
    (h : l ∈ extractLinks cwd rootAbs content cf) :
    ∃ tp ∈ rawLinks content.data, linkKeep cwd rootAbs cf tp.2 = some l := by
  rcases extractLinks_foldl_sound cwd rootAbs cf (rawLinks content.data) [] l h with hin | h2
  · simp at hin
  · exact h2

/-! Claim theorems. -/

/-- C2: the claim is that the `_split_text` window loop's start offset
strictly increases by at least `c − o` and at most `c` on every iteration
whenever `c > o`, and that the code enforces this.  The code does not: with
`chunk_size 10 > chunk_overlap 5` on `c2text`, the first iteration moves the
start from 0 to −3 (a decrease), and −5 is then a fixed point of the loop
body strictly below the text length, so `while start < len(text)` never
exits.  Each conjunct below evaluates one loop iteration of the source. -/
theorem c2_split_progress_bug :
    splitStep 10 5 c2text.data 0 = ("a.".data, -3) ∧
    splitStep 10 5 c2text.data (-3) = ([], -5) ∧
    splitStep 10 5 c2text.data (-5) = ([], -5) ∧
    ((-5 : Int) < (c2text.data.length : Int)) ∧
    ¬ ((0 : Int) + (10 - 5) ≤ -3) := by decide

/-- C1 counterexample: in the one-document corpus `corpusC1`, the document
`a.md` links to `b.md`, which is not a node of the build; the link is kept
and stored in `a.md`'s outgoing set even though its target does not exist,
so outgoing sets may reference paths that are not nodes of the same build. -/
theorem c1_counterexample :
    (dictGet "a.md" (buildDocumentGraph ["r"] ["r"] corpusC1)).map
        (fun n => n.outgoing_links) = some ["b.md"] ∧
    dictGet "b.md" (buildDocumentGraph ["r"] ["r"] corpusC1) = none := by decide

/-- Lookup in a saved-then-loaded graph, computed nodewise. -/
theorem dictGet_loadGraph_saveGraph (g : List (String × DocumentNode)) (p : String) :
    dictGet p (loadGraph (saveGraph g)) =
      (dictGet p g).map fun n =>
        { file_path := n.file_path
          title := n.title
          content := ""
          outgoing_links := setFromList n.outgoing_links
          incoming_links := setFromList n.incoming_links
          metadata := n.metadata } := by
  induction g with
  | nil => simp [saveGraph, loadGraph, dictGet]
  | cons kv t ih =>
    by_cases h : kv.1 = p
    · simp [saveGraph, loadGraph, dictGet, h]
    · simpa [saveGraph, loadGraph, dictGet, h] using ih

/-- C6: saving the document graph and loading it back preserves, for every
document path, the title and the outgoing and incoming link sets exactly
(set equality always; list equality whenever the stored sets are
duplicate-free, as the builder produces them), while the content field of
every loaded node is empty. -/
theorem c6_save_load_roundtrip (g : List (String × DocumentNode)) (p : String)
    (n : DocumentNode) (h : dictGet p g = some n) :
    ∃ n2, dictGet p (loadGraph (saveGraph g)) = some n2 ∧
      n2.title = n.title ∧ n2.content = "" ∧
      (∀ x, x ∈ n2.outgoing_links ↔ x ∈ n.outgoing_links) ∧
      (∀ x, x ∈ n2.incoming_links ↔ x ∈ n.incoming_links) ∧
      (n.outgoing_links.Nodup → n2.outgoing_links = n.outgoing_links) ∧
      (n.incoming_links.Nodup → n2.incoming_links = n.incoming_links) := by
  refine
    ⟨{ file_path := n.file_path
       title := n.title
       content := ""
       outgoing_links := setFromList n.outgoing_links
       incoming_links := setFromList n.incoming_links
       metadata := n.metadata }, ?_, rfl, rfl, ?_, ?_, ?_, ?_⟩
  · rw [dictGet_loadGraph_saveGraph, h]
    rfl
  · intro x
    exact mem_setFromList
  · intro x
    exact mem_setFromList
  · intro hnd
    exact setFromList_eq_self hnd
  · intro hnd
    exact setFromList_eq_self hnd

/-- Node content of `b.md` in the built graph of `corpusAB`. -/
def nodeBEx : DocumentNode :=
  { file_path := "b.md", title := "B", content := "# B\nbody", outgoing_links := [],
    incoming_links := ["a.md"], metadata := [("file_path", "b.md")] }

/-! Second-pass invariants for the graph builder. -/

theorem dictGet_dictInsert_cases {α : Type} {k p : String} {v w : α} {d : List (String × α)}
    (h : dictGet p (dictInsert k v d) = some w) :
    (p = k ∧ w = v) ∨ (p ≠ k ∧ dictGet p d = some w) := by
  by_cases hp : p = k
  · subst hp
    rw [lookup_dictInsert_self] at h
    exact Or.inl ⟨rfl, (Option.some_injective _ h).symm⟩
  · rw [lookup_dictInsert_ne hp] at h
    exact Or.inr ⟨hp, h⟩

theorem addIncoming_keys (rel : String) (gx : List (String × DocumentNode)) (t : String) :
    keys (addIncoming rel gx t) = keys gx := by
  rw [addIncoming]
  rcases hlt : dictGet t gx with _ | tn
  · rfl
  · exact keys_dictInsert_of_mem (lookup_some_mem_keys hlt) _

theorem addIncoming_view {rel t p : String} {gx : List (String × DocumentNode)}
    {n' : DocumentNode} (h : dictGet p (addIncoming rel gx t) = some n') :
    ∃ n, dictGet p gx = some n ∧ n'.content = n.content ∧
      n'.outgoing_links = n.outgoing_links ∧
      ∀ q ∈ n'.incoming_links, q ∈ n.incoming_links ∨ q = rel := by
  rw [addIncoming] at h
  rcases hlt : dictGet t gx with _ | tn
  · rw [hlt] at h
    exact ⟨n', h, rfl, rfl, fun q hq => Or.inl hq⟩
  · rw [hlt] at h
    rcases dictGet_dictInsert_cases h with ⟨rfl, rfl⟩ | ⟨hne, hget⟩
    · exact ⟨tn, hlt, rfl, rfl, fun q hq => mem_setAdd.mp hq⟩
    · exact ⟨n', hget, rfl, rfl, fun q hq => Or.inl hq⟩

theorem foldIncoming_keys (rel : String) (links : List String) :
    ∀ gx : List (String × DocumentNode), keys (links.foldl (addIncoming rel) gx) = keys gx := by
  induction links with
  | nil => intro gx; rfl
  | cons l ls ih =>
    intro gx
    rw [List.foldl_cons, ih, addIncoming_keys]

theorem foldIncoming_view {rel : String} (links : List String) :
    ∀ (gx : List (String × DocumentNode)) (p : String) (n' : DocumentNode),
      dictGet p (links.foldl (addIncoming rel) gx) = some n' →
      ∃ n, dictGet p gx = some n ∧ n'.content = n.content ∧
        n'.outgoing_links = n.outgoing_links ∧
        ∀ q ∈ n'.incoming_links, q ∈ n.incoming_links ∨ q = rel := by
  induction links with
  | nil => intro gx p n' h; exact ⟨n', h, rfl, rfl, fun q hq => Or.inl hq⟩
  | cons l ls ih =>
    intro gx p n' h
    rw [List.foldl_cons] at h
    obtain ⟨n1, h1, hc1, ho1, hi1⟩ := ih _ p n' h
    obtain ⟨n, h0, hc0, ho0, hi0⟩ := addIncoming_view h1
    refine ⟨n, h0, hc1.trans hc0, ho1.trans ho0, fun q hq => ?_⟩
    rcases hi1 q hq with hq1 | rfl
    · exact hi0 q hq1
    · exact Or.inr rfl

theorem linkPassStep_none {cwd rootAbs : List String} {g : List (String × DocumentNode)}
    {rel : String} (h : dictGet rel g = none) : linkPassStep cwd rootAbs g rel = g := by
  rw [linkPassStep, h]

theorem linkPassStep_keys (cwd rootAbs : List String) (g : List (String × DocumentNode))
    (rel : String) : keys (linkPassStep cwd rootAbs g rel) = keys g := by
  rw [linkPassStep]
  rcases hrel : dictGet rel g with _ | node
  · rfl
  · rw [foldIncoming_keys]
    exact keys_dictInsert_of_mem (lookup_some_mem_keys hrel) _

theorem linkPassStep_self {cwd rootAbs : List String} {g : List (String × DocumentNode)}
    {rel : String} {node : DocumentNode} (h : dictGet rel g = some node) :
    ∃ n', dictGet rel (linkPassStep cwd rootAbs g rel) = some n' ∧
      n'.content = node.content ∧
      n'.outgoing_links = extractLinks cwd rootAbs node.content rel ∧
      ∀ q ∈ n'.incoming_links, q ∈ node.incoming_links ∨ q = rel := by
  have hmem : rel ∈ keys (linkPassStep cwd rootAbs g rel) := by
    rw [linkPassStep_keys]
    exact lookup_some_mem_keys h
  obtain ⟨n', hn'⟩ := mem_keys_exists_lookup hmem
  rw [linkPassStep, h] at hn'
  obtain ⟨n1, h1, hc1, ho1, hi1⟩ := foldIncoming_view _ _ _ _ hn'
  rw [lookup_dictInsert_self] at h1
  obtain rfl := Option.some_injective _ h1.symm
  refine ⟨n', ?_, hc1, ?_, ?_⟩
  · rw [linkPassStep, h]
    exact hn'
  · exact ho1
  · intro q hq
    exact hi1 q hq

theorem linkPassStep_other {cwd rootAbs : List String} {g : List (String × DocumentNode)}
    {rel p : String} {n' : DocumentNode} (hne : p ≠ rel)
    (h : dictGet p (linkPassStep cwd rootAbs g rel) = some n') :
    ∃ n, dictGet p g = some n ∧ n'.content = n.content ∧
      n'.outgoing_links = n.outgoing_links ∧
      ∀ q ∈ n'.incoming_links, q ∈ n.incoming_links ∨ (q = rel ∧ rel ∈ keys g) := by
  rw [linkPassStep] at h
  rcases hrel : dictGet rel g with _ | node
  · rw [hrel] at h
    exact ⟨n', h, rfl, rfl, fun q hq => Or.inl hq⟩
  · rw [hrel] at h
    obtain ⟨n1, h1, hc1, ho1, hi1⟩ := foldIncoming_view _ _ _ _ h
    rw [lookup_dictInsert_ne hne] at h1
    refine ⟨n1, h1, hc1, ho1, fun q hq => ?_⟩
    rcases hi1 q hq with hq1 | rfl
    · exact Or.inl hq1
    · exact Or.inr ⟨rfl, lookup_some_mem_keys hrel⟩

/-- Well-formed incoming sets: every incoming link names an existing node. -/
def IncomingWF (g : List (String × DocumentNode)) : Prop :=
  ∀ p n, dictGet p g = some n → ∀ q ∈ n.incoming_links, q ∈ keys g

/-- A key whose node carries exactly the links extracted from its own
content. -/
def OutgoingSpec (cwd rootAbs : List String) (g : List (String × DocumentNode))
    (p : String) : Prop :=
  ∀ n, dictGet p g = some n → n.outgoing_links = extractLinks cwd rootAbs n.content p

theorem step_IncomingWF {cwd rootAbs : List String} {g : List (String × DocumentNode)}
    (rel : String) (hg : IncomingWF g) : IncomingWF (linkPassStep cwd rootAbs g rel) := by
  intro p n' h' q hq
  rw [linkPassStep_keys]
  by_cases hpr : p = rel
  · subst hpr
    rcases hrel : dictGet p g with _ | node
    · rw [linkPassStep_none hrel] at h'
      exact hg p n' h' q hq
    · obtain ⟨n2, hn2, _, _, hi⟩ := @linkPassStep_self cwd rootAbs _ _ _ hrel
      rw [h'] at hn2
      obtain rfl := Option.some_injective _ hn2
      rcases hi q hq with hq1 | rfl
      · exact hg p node hrel q hq1
      · exact lookup_some_mem_keys hrel
  · obtain ⟨n, hn, _, _, hi⟩ := linkPassStep_other hpr h'
    rcases hi q hq with hq1 | ⟨rfl, hmem⟩
    · exact hg p n hn q hq1
    · exact hmem

theorem step_OutgoingSpec_self (cwd rootAbs : List String) (g : List (String × DocumentNode))
    (rel : String) : OutgoingSpec cwd rootAbs (linkPassStep cwd rootAbs g rel) rel := by
  intro n' h'
  rcases hrel : dictGet rel g with _ | node
  · rw [linkPassStep_none hrel] at h'
    exact absurd (hrel ▸ h') (by simp [hrel])
  · obtain ⟨n2, hn2, hc, ho, _⟩ := @linkPassStep_self cwd rootAbs _ _ _ hrel
    rw [h'] at hn2
    obtain rfl := Option.some_injective _ hn2
    rw [ho, hc]

theorem step_OutgoingSpec_pres {cwd rootAbs : List String} {g : List (String × DocumentNode)}
    {rel p : String} (hne : p ≠ rel) (hs : OutgoingSpec cwd rootAbs g p) :
    OutgoingSpec cwd rootAbs (linkPassStep cwd rootAbs g rel) p := by
  intro n' h'
  obtain ⟨n, hn, hc, ho, _⟩ := linkPassStep_other hne h'
  rw [ho, hc]
  exact hs n hn

theorem pass2_inv (cwd rootAbs : List String) :
    ∀ (ks : List String) (g : List (String × DocumentNode)), IncomingWF g →
      IncomingWF (ks.foldl (linkPassStep cwd rootAbs) g) ∧
      keys (ks.foldl (linkPassStep cwd rootAbs) g) = keys g ∧
      ∀ p, (p ∈ ks ∨ OutgoingSpec cwd rootAbs g p) →
        OutgoingSpec cwd rootAbs (ks.foldl (linkPassStep cwd rootAbs) g) p := by
  intro ks
  induction ks with
  | nil =>
    intro g hg
    refine ⟨hg, rfl, fun p hp => ?_⟩
    rcases hp with hp | hp
    · exact absurd hp (List.not_mem_nil p)
    · exact hp
  | cons rel ks ih =>
    intro g hg
    obtain ⟨wf, keq, outs⟩ := ih (linkPassStep cwd rootAbs g rel) (step_IncomingWF rel hg)
    rw [List.foldl_cons]
    refine ⟨wf, keq.trans (linkPassStep_keys cwd rootAbs g rel), fun p hp => outs p ?_⟩
    rcases hp with hp | hp
    · rcases List.mem_cons.mp hp with rfl | hp2
      · exact Or.inr (step_OutgoingSpec_self cwd rootAbs g p)
      · exact Or.inl hp2
    · by_cases hpr : p = rel
      · subst hpr
        exact Or.inr (step_OutgoingSpec_self cwd rootAbs g p)
      · exact Or.inr (step_OutgoingSpec_pres hpr hp)

theorem buildNodes_incoming :
    ∀ (corpus : List (String × String)) (p : String) (n : DocumentNode),
      dictGet p (buildNodes corpus) = some n → n.incoming_links = [] := by
  have aux :
      ∀ (corpus : List (String × String)) (g0 : List (String × DocumentNode)),
        (∀ p n, dictGet p g0 = some n → n.incoming_links = []) →
        ∀ p n,
          dictGet p
              (corpus.foldl
                (fun g pc =>
                  dictInsert pc.1
                    { file_path := pc.1
                      title := extractTitle pc.2 (fileName pc.1)
                      content := pc.2
                      outgoing_links := []
                      incoming_links := []
                      metadata := dictInsert "file_path" pc.1 (extractMetadata pc.2) }
                    g)
                g0) =
            some n →
          n.incoming_links = [] := by
    intro corpus
    induction corpus with
    | nil => intro g0 h0 p n h; exact h0 p n h
    | cons pc t ih =>
      intro g0 h0 p n h
      rw [List.foldl_cons] at h
      refine ih _ ?_ p n h
      intro p2 n2 h2
      rcases dictGet_dictInsert_cases h2 with ⟨rfl, rfl⟩ | ⟨_, hget⟩
      · rfl
      · exact h0 p2 n2 hget
  intro corpus p n h
  exact aux corpus [] (by intro p2 n2 h2; simp [dictGet] at h2) p n h

theorem buildNodes_IncomingWF (corpus : List (String × String)) :
    IncomingWF (buildNodes corpus) := by
  intro p n h q hq
  rw [buildNodes_incoming corpus p n h] at hq
  exact absurd hq (List.not_mem_nil q)

/-- C1 amended: in every built graph, incoming sets reference only existing
nodes, and each node's outgoing set is exactly the extraction result of its
own content — so external, anchor-only and unresolvable links are never
stored, and every stored outgoing link is the successful resolution of a raw
markdown link of the document.  (The unamended claim fails because outgoing
targets are not checked for existence; see the counterexample.) -/
theorem c1_amended (cwd rootAbs : List String) (corpus : List (String × String))
    (p : String) (n : DocumentNode)
    (h : dictGet p (buildDocumentGraph cwd rootAbs corpus) = some n) :
    (∀ q ∈ n.incoming_links, q ∈ keys (buildDocumentGraph cwd rootAbs corpus)) ∧
    n.outgoing_links = extractLinks cwd rootAbs n.content p ∧
    ∀ l ∈ n.outgoing_links, ∃ tp ∈ rawLinks n.content.data,
      linkKeep cwd rootAbs p tp.2 = some l := by
  have hinv := pass2_inv cwd rootAbs (keys (buildNodes corpus)) (buildNodes corpus)
    (buildNodes_IncomingWF corpus)
  obtain ⟨wf, keq, outs⟩ := hinv
  rw [buildDocumentGraph] at h ⊢
  have hpmem : p ∈ keys (buildNodes corpus) := by
    rw [← keq]
    exact lookup_some_mem_keys h
  have hout : n.outgoing_links = extractLinks cwd rootAbs n.content p :=
    outs p (Or.inl hpmem) n h
  refine ⟨fun q hq => wf p n h q hq, hout, fun l hl => ?_⟩
  rw [hout] at hl
  exact extractLinks_sound hl

/-- Node content of `a.md` in the built graph of `corpusC1`. -/
def nodeAEx : DocumentNode :=
  { file_path := "a.md", title := "A", content := "[x](b.md)", outgoing_links := ["b.md"],
    incoming_links := [], metadata := [("file_path", "a.md")] }

/-- C1 amended witness: the invariant applied to the concrete one-document
corpus with a dangling internal link. -/
theorem c1_amended_witness :
    (∀ q ∈ nodeAEx.incoming_links, q ∈ keys (buildDocumentGraph ["r"] ["r"] corpusC1)) ∧
    nodeAEx.outgoing_links = extractLinks ["r"] ["r"] nodeAEx.content "a.md" ∧
    ∀ l ∈ nodeAEx.outgoing_links, ∃ tp ∈ rawLinks nodeAEx.content.data,
      linkKeep ["r"] ["r"] "a.md" tp.2 = some l :=
  c1_amended ["r"] ["r"] corpusC1 "a.md" nodeAEx (by decide)

/-- C6 witness: the roundtrip theorem applied to the graph built from the
concrete two-document corpus, at the document with an incoming link. -/
theorem c6_save_load_roundtrip_witness :
    ∃ n2,
      dictGet "b.md" (loadGraph (saveGraph (buildDocumentGraph ["r"] ["r"] corpusAB))) =
          some n2 ∧
        n2.title = nodeBEx.title ∧ n2.content = "" ∧
        (∀ x, x ∈ n2.outgoing_links ↔ x ∈ nodeBEx.outgoing_links) ∧
        (∀ x, x ∈ n2.incoming_links ↔ x ∈ nodeBEx.incoming_links) ∧
        (nodeBEx.outgoing_links.Nodup → n2.outgoing_links = nodeBEx.outgoing_links) ∧
        (nodeBEx.incoming_links.Nodup → n2.incoming_links = nodeBEx.incoming_links) :=
  c6_save_load_roundtrip (buildDocumentGraph ["r"] ["r"] corpusAB) "b.md" nodeBEx (by decide)

/-! Indexer staging and persistence lemmas. -/

theorem buildNodes_keys_nodup (corpus : List (String × String)) :
    (keys (buildNodes corpus)).Nodup := by
  have aux :
      ∀ (corpus : List (String × String)) (g0 : List (String × DocumentNode)),
        (keys g0).Nodup →
        (keys (corpus.foldl
            (fun g pc =>
              dictInsert pc.1
                { file_path := pc.1
                  title := extractTitle pc.2 (fileName pc.1)
                  content := pc.2
                  outgoing_links := []
                  incoming_links := []
                  metadata := dictInsert "file_path" pc.1 (extractMetadata pc.2) }
                g)
            g0)).Nodup := by
    intro corpus
    induction corpus with
    | nil => intro g0 h0; exact h0
    | cons pc t ih =>
      intro g0 h0
      rw [List.foldl_cons]
      exact ih _ (keys_nodup_dictInsert h0 _ _)
  exact aux corpus [] (by simp [keys_nil])

theorem keys_buildDocumentGraph (cwd rootAbs : List String) (corpus : List (String × String)) :
    keys (buildDocumentGraph cwd rootAbs corpus) = keys (buildNodes corpus) := by
  rw [buildDocumentGraph]
  exact (pass2_inv cwd rootAbs (keys (buildNodes corpus)) (buildNodes corpus)
    (buildNodes_IncomingWF corpus)).2.1

theorem buildDocumentGraph_keys_nodup (cwd rootAbs : List String)
    (corpus : List (String × String)) :
    (keys (buildDocumentGraph cwd rootAbs corpus)).Nodup := by
  rw [keys_buildDocumentGraph]
  exact buildNodes_keys_nodup corpus

theorem stageStep_hashes_other {hashF : String → String} {c o : Nat} {force : Bool}
    {st : StageResult} {pn : String × DocumentNode} {p : String} (hne : p ≠ pn.1) :
    dictGet p (stageStep hashF c o force st pn).hashes = dictGet p st.hashes := by
  rw [stageStep]
  by_cases hcond : force = false ∧ dictGet pn.1 st.hashes = some (hashF pn.2.content)
  · rw [if_pos hcond]
  · rw [if_neg hcond]
    exact lookup_dictInsert_ne hne _ _

theorem stage_frame (hashF : String → String) (c o : Nat) (force : Bool) :
    ∀ (g : List (String × DocumentNode)) (st : StageResult) (p : String), p ∉ keys g →
      dictGet p (g.foldl (stageStep hashF c o force) st).hashes = dictGet p st.hashes := by
  intro g
  induction g with
  | nil => intro st p _; rfl
  | cons pn t ih =>
    intro st p hp
    simp only [keys_cons, List.mem_cons] at hp
    push_neg at hp
    rw [List.foldl_cons, ih _ p hp.2]
    exact stageStep_hashes_other hp.1

theorem stage_lookup (hashF : String → String) (c o : Nat) (force : Bool) :
    ∀ (g : List (String × DocumentNode)) (st : StageResult), (keys g).Nodup →
      ∀ pn ∈ g, dictGet pn.1 (g.foldl (stageStep hashF c o force) st).hashes =
        some (hashF pn.2.content) := by
  intro g
  induction g with
  | nil => intro st _ pn hpn; exact absurd hpn (List.not_mem_nil pn)
  | cons qn t ih =>
    intro st hnd pn hpn
    simp only [keys_cons, List.nodup_cons] at hnd
    rw [List.foldl_cons]
    rcases List.mem_cons.mp hpn with rfl | hpn2
    · rw [stage_frame hashF c o force t _ pn.1 hnd.1]
      rw [stageStep]
      by_cases hcond : force = false ∧ dictGet pn.1 st.hashes = some (hashF pn.2.content)
      · rw [if_pos hcond]
        exact hcond.2
      · rw [if_neg hcond]
        exact lookup_dictInsert_self _ _ _
    · exact ih _ hnd.2 pn hpn2

theorem stage_unchanged (hashF : String → String) (c o : Nat)
    (persisted : List (String × String)) :
    ∀ g : List (String × DocumentNode),
      (∀ pn ∈ g, dictGet pn.1 persisted = some (hashF pn.2.content)) →
      g.foldl (stageStep hashF c o false) { chunks := [], hashes := persisted } =
        { chunks := [], hashes := persisted } := by
  intro g
  induction g with
  | nil => intro _; rfl
  | cons qn t ih =>
    intro hall
    rw [List.foldl_cons, stageStep,
      if_pos ⟨rfl, hall qn (List.mem_cons_self qn t)⟩]
    exact ih fun pn hpn => hall pn (List.mem_cons_of_mem qn hpn)

/-- A run over a corpus whose every document digest matches the persisted
hash map stages nothing, embeds nothing, and still succeeds, rewriting the
persisted state with the freshly rebuilt graph snapshot. -/
theorem indexDocuments_unchanged (hashF : String → String)
    (embedBatch : List String → Except String (List (List ℚ)))
    (cwd rootAbs : List String) (c o : Nat) (corpus : List (String × String))
    (persisted : List (String × String))
    (hunch : ∀ pn ∈ buildDocumentGraph cwd rootAbs corpus,
      dictGet pn.1 persisted = some (hashF pn.2.content)) :
    indexDocuments hashF embedBatch cwd rootAbs c o corpus persisted false =
      .ok
        { embedded := []
          embedCalls := 0
          savedHashes := persisted
          savedGraph := saveGraph (buildDocumentGraph cwd rootAbs corpus)
          graph := buildDocumentGraph cwd rootAbs corpus } := by
  rw [indexDocuments]
  have hstage :
      stageDocs hashF c o false persisted (buildDocumentGraph cwd rootAbs corpus) =
        { chunks := [], hashes := persisted } :=
    stage_unchanged hashF c o persisted _ hunch
  rw [hstage]
  rfl

/-- C10: every indexing run rebuilds the link graph from scratch over the
whole corpus and rewrites both the persisted graph snapshot and the content
hash map, even when every document is unchanged and zero chunks are
embedded; the incremental skip affects only chunking and embedding. -/
theorem c10_rebuild_and_persist (hashF : String → String)
    (embedBatch : List String → Except String (List (List ℚ)))
    (cwd rootAbs : List String) (c o : Nat) (corpus : List (String × String))
    (hashes0 : List (String × String)) (snap0 : Option (List (String × SerializedNode)))
    (hunch : ∀ pn ∈ buildDocumentGraph cwd rootAbs corpus,
      dictGet pn.1 hashes0 = some (hashF pn.2.content)) :
    indexDocuments hashF embedBatch cwd rootAbs c o corpus hashes0 false =
      .ok
        { embedded := []
          embedCalls := 0
          savedHashes := hashes0
          savedGraph := saveGraph (buildDocumentGraph cwd rootAbs corpus)
          graph := buildDocumentGraph cwd rootAbs corpus } ∧
    runIndex hashF embedBatch cwd rootAbs c o corpus false { hashes := hashes0, graphSnap := snap0 } =
      { hashes := hashes0
        graphSnap := some (saveGraph (buildDocumentGraph cwd rootAbs corpus)) } := by
  have h := indexDocuments_unchanged hashF embedBatch cwd rootAbs c o corpus hashes0 hunch
  refine ⟨h, ?_⟩
  rw [runIndex]
  rw [h]

/-- C10 witness: a corpus whose single document already matches the
persisted digest still gets its graph snapshot and hash map rewritten. -/
theorem c10_rebuild_and_persist_witness :
    indexDocuments (fun s => s) (fun _ => .error "down") ["r"] ["r"] 1000 200
        [("a.md", "hello")] [("a.md", "hello")] false =
      .ok
        { embedded := []
          embedCalls := 0
          savedHashes := [("a.md", "hello")]
          savedGraph := saveGraph (buildDocumentGraph ["r"] ["r"] [("a.md", "hello")])
          graph := buildDocumentGraph ["r"] ["r"] [("a.md", "hello")] } ∧
    runIndex (fun s => s) (fun _ => .error "down") ["r"] ["r"] 1000 200 [("a.md", "hello")]
        false { hashes := [("a.md", "hello")], graphSnap := none } =
      { hashes := [("a.md", "hello")]
        graphSnap := some (saveGraph (buildDocumentGraph ["r"] ["r"] [("a.md", "hello")])) } :=
  c10_rebuild_and_persist (fun s => s) (fun _ => .error "down") ["r"] ["r"] 1000 200
    [("a.md", "hello")] [("a.md", "hello")] none (by decide)

/-- C7: a second indexing run over an unchanged corpus, without the force
flag, stages no document for chunking and issues zero embedding calls:
every document's digest equals the hash-map entry persisted by the first
successful run, so every document is skipped. -/
theorem c7_second_run_zero_embedding (hashF : String → String)
    (eb1 eb2 : List String → Except String (List (List ℚ)))
    (cwd rootAbs : List String) (c o : Nat) (corpus : List (String × String))
    (persisted : List (String × String)) (force : Bool) (r1 : IndexResult)
    (h1 : indexDocuments hashF eb1 cwd rootAbs c o corpus persisted force = .ok r1) :
    indexDocuments hashF eb2 cwd rootAbs c o corpus r1.savedHashes false =
      .ok
        { embedded := []
          embedCalls := 0
          savedHashes := r1.savedHashes
          savedGraph := saveGraph (buildDocumentGraph cwd rootAbs corpus)
          graph := buildDocumentGraph cwd rootAbs corpus } := by
  have hsaved :
      r1.savedHashes =
        (stageDocs hashF c o force persisted (buildDocumentGraph cwd rootAbs corpus)).hashes := by
    rw [indexDocuments] at h1
    rcases hemb :
        embedDocuments eb1
          (stageDocs hashF c o force persisted (buildDocumentGraph cwd rootAbs corpus)).chunks
      with e | dk
    · rw [hemb] at h1
      exact absurd h1 (by simp)
    · rw [hemb] at h1
      obtain rfl := (Except.ok.injEq _ _).mp h1.symm
      rfl
  refine indexDocuments_unchanged hashF eb2 cwd rootAbs c o corpus r1.savedHashes ?_
  intro pn hpn
  rw [hsaved, stageDocs]
  exact stage_lookup hashF c o force _ _ (buildDocumentGraph_keys_nodup cwd rootAbs corpus)
    pn hpn

/-- C8: a failing embedding batch aborts the run before anything is
persisted: `index_documents` propagates the error and the durable hash map
and graph snapshot are left exactly as they were, so documents staged
before the failure keep their stale persisted hashes. -/
theorem c8_embed_failure_no_persistence (hashF : String → String)
    (embedBatch : List String → Except String (List (List ℚ)))
    (cwd rootAbs : List String) (c o : Nat) (corpus : List (String × String))
    (force : Bool) (st : PersistedState) (e : String)
    (hfail :
      embedDocuments embedBatch
          (stageDocs hashF c o force st.hashes (buildDocumentGraph cwd rootAbs corpus)).chunks =
        .error e) :
    indexDocuments hashF embedBatch cwd rootAbs c o corpus st.hashes force = .error e ∧
    runIndex hashF embedBatch cwd rootAbs c o corpus force st = st := by
  have hidx : indexDocuments hashF embedBatch cwd rootAbs c o corpus st.hashes force =
      .error e := by
    rw [indexDocuments, hfail]
  refine ⟨hidx, ?_⟩
  rw [runIndex, hidx]

/-- One-document corpus used by the indexer witnesses. -/
def corpusHello : List (String × String) := [("a.md", "hello")]

/-- Result of the first indexing run over `corpusHello` with an identity
digest and an embedding oracle returning a zero vector per text. -/
def r1Ex : IndexResult :=
  { embedded :=
      [{ id := "a.md__chunk_0_0"
         content := "# A\n\nhello"
         metadata :=
           [("file_path", "a.md"), ("chunk_id", "a.md__chunk_0_0"),
            ("section", "Introduction"), ("doc_title", "A")]
         embedding := some [0] }]
    embedCalls := 1
    savedHashes := [("a.md", "hello")]
    savedGraph := saveGraph (buildDocumentGraph ["r"] ["r"] corpusHello)
    graph := buildDocumentGraph ["r"] ["r"] corpusHello }

/-- C7 witness: after a concrete successful first run, the second run over
the unchanged corpus embeds nothing. -/
theorem c7_second_run_zero_embedding_witness :
    indexDocuments (fun s => s) (fun _ => .error "down") ["r"] ["r"] 1000 200 corpusHello
        r1Ex.savedHashes false =
      .ok
        { embedded := []
          embedCalls := 0
          savedHashes := r1Ex.savedHashes
          savedGraph := saveGraph (buildDocumentGraph ["r"] ["r"] corpusHello)
          graph := buildDocumentGraph ["r"] ["r"] corpusHello } :=
  c7_second_run_zero_embedding (fun s => s)
    (fun ts => .ok (ts.map fun _ => [(0 : ℚ)])) (fun _ => .error "down")
    ["r"] ["r"] 1000 200 corpusHello [] false r1Ex (by rfl)

/-- C8 witness: with an always-failing embedding oracle, indexing the
concrete corpus from an empty persisted state fails and leaves the persisted
state untouched. -/
theorem c8_embed_failure_no_persistence_witness :
    indexDocuments (fun s => s) (fun _ => .error "boom") ["r"] ["r"] 1000 200 corpusHello
        [] false = .error "boom" ∧
    runIndex (fun s => s) (fun _ => .error "boom") ["r"] ["r"] 1000 200 corpusHello false
        { hashes := [], graphSnap := none } =
      { hashes := [], graphSnap := none } :=
  c8_embed_failure_no_persistence (fun s => s) (fun _ => .error "boom") ["r"] ["r"] 1000 200
    corpusHello false { hashes := [], graphSnap := none } "boom" (by rfl)

/-! Graph-traversal invariants. -/

/-- Frontier invariant: queued entries are within the hop bound and
genuinely reachable at their recorded hop count. -/
def QueueInv (g : List (String × GraphNode)) (seeds : List String) (maxHops : Nat)
    (queue : List (String × Nat)) : Prop :=
  ∀ ph ∈ queue, ph.2 ≤ maxHops ∧ Reaches g seeds ph.2 ph.1

/-- Result invariant: recorded documents are non-seeds reached in between 1
and `maxHops` hops, are all marked visited, and appear at most once. -/
def AccInv (g : List (String × GraphNode)) (seeds : List String) (maxHops : Nat)
    (vis : List String) (acc : List (String × Nat)) : Prop :=
  (∀ ph ∈ acc, 1 ≤ ph.2 ∧ ph.2 ≤ maxHops ∧ Reaches g seeds ph.2 ph.1 ∧
      ph.1 ∉ seeds ∧ ph.1 ∈ vis) ∧
    (acc.map Prod.fst).Nodup

theorem expandLinks_inv {g : List (String × GraphNode)} {seeds : List String}
    {maxHops : Nat} (links : List String) (h1 : Nat)
    (hreach : ∀ l ∈ links, Reaches g seeds h1 l) (hh1 : 1 ≤ h1) (hhm : h1 ≤ maxHops) :
    ∀ (vis : List String) (q acc : List (String × Nat)),
      QueueInv g seeds maxHops q → AccInv g seeds maxHops vis acc →
      (∀ s ∈ seeds, s ∈ vis) →
      QueueInv g seeds maxHops (expandLinks links h1 (vis, q, acc)).2.1 ∧
        AccInv g seeds maxHops (expandLinks links h1 (vis, q, acc)).1
          (expandLinks links h1 (vis, q, acc)).2.2 ∧
        (∀ s ∈ seeds, s ∈ (expandLinks links h1 (vis, q, acc)).1) ∧
        (∀ x ∈ vis, x ∈ (expandLinks links h1 (vis, q, acc)).1) := by
  induction links with
  | nil =>
    intro vis q acc hq hacc hseeds
    exact ⟨hq, hacc, hseeds, fun x hx => hx⟩
  | cons l ls ih =>
    intro vis q acc hq hacc hseeds
    have hreach2 : ∀ x ∈ ls, Reaches g seeds h1 x := fun x hx =>
      hreach x (List.mem_cons_of_mem l hx)
    by_cases hv : l ∈ vis
    · have hstep : expandLinks (l :: ls) h1 (vis, q, acc) = expandLinks ls h1 (vis, q, acc) := by
        simp [expandLinks, hv]
      rw [hstep]
      exact ih hreach2 vis q acc hq hacc hseeds
    · have hstep :
          expandLinks (l :: ls) h1 (vis, q, acc) =
            expandLinks ls h1 (vis ++ [l], q ++ [(l, h1)], acc ++ [(l, h1)]) := by
        simp [expandLinks, hv]
      rw [hstep]
      refine ih hreach2 (vis ++ [l]) (q ++ [(l, h1)]) (acc ++ [(l, h1)]) ?_ ?_ ?_
        |>.imp id (fun h2 => h2.imp id (fun h3 => h3.imp id fun h4 x hx =>
          h4 x (List.mem_append_left _ hx)))
      · intro ph hph
        rcases List.mem_append.mp hph with hph | hph
        · exact hq ph hph
        · obtain rfl : ph = (l, h1) := List.mem_singleton.mp hph
          exact ⟨hhm, hreach l (List.mem_cons_self l ls)⟩
      · constructor
        · intro ph hph
          rcases List.mem_append.mp hph with hph | hph
          · obtain ⟨a1, a2, a3, a4, a5⟩ := hacc.1 ph hph
            exact ⟨a1, a2, a3, a4, List.mem_append_left _ a5⟩
          · obtain rfl : ph = (l, h1) := List.mem_singleton.mp hph
            refine ⟨hh1, hhm, hreach l (List.mem_cons_self l ls), ?_, ?_⟩
            · intro hls
              exact hv (hseeds l hls)
            · exact List.mem_append_right _ (List.mem_singleton.mpr rfl)
        · rw [List.map_append]
          have hln : l ∉ acc.map Prod.fst := by
            intro hmem
            obtain ⟨ph, hph, hfst⟩ := List.mem_map.mp hmem
            obtain ⟨_, _, _, _, a5⟩ := hacc.1 ph hph
            rw [hfst] at a5
            exact hv a5
          refine List.Nodup.append hacc.2 (List.nodup_singleton _) ?_
          intro a ha hb
          rw [List.map_singleton, List.mem_singleton] at hb
          subst hb
          exact hln ha
      · intro s hs
        exact List.mem_append_left _ (hseeds s hs)

theorem travGo_inv {g : List (String × GraphNode)} {seeds : List String}
    {maxHops maxRes : Nat} :
    ∀ (fuel : Nat) (queue : List (String × Nat)) (vis : List String)
      (acc : List (String × Nat)),
      QueueInv g seeds maxHops queue → AccInv g seeds maxHops vis acc →
      (∀ s ∈ seeds, s ∈ vis) →
      ∃ vis2, AccInv g seeds maxHops vis2 (travGo g maxHops maxRes fuel queue vis acc) := by
  intro fuel
  induction fuel with
  | zero =>
    intro queue vis acc _ hacc _
    exact ⟨vis, hacc⟩
  | succ fuel ih =>
    intro queue vis acc hq hacc hseeds
    match queue with
    | [] => exact ⟨vis, hacc⟩
    | (p, h) :: qt =>
      rw [travGo]
      by_cases hfull : maxRes ≤ acc.length
      · rw [if_pos hfull]
        exact ⟨vis, hacc⟩
      · rw [if_neg hfull]
        have hqt : QueueInv g seeds maxHops qt := fun ph hph =>
          hq ph (List.mem_cons_of_mem _ hph)
        by_cases hhop : maxHops ≤ h
        · rw [if_pos hhop]
          exact ih qt vis acc hqt hacc hseeds
        · rw [if_neg hhop]
          rcases hlook : dictGet p g with _ | node
          · exact ih qt vis acc hqt hacc hseeds
          · have hp := hq (p, h) (List.mem_cons_self _ _)
            have hreach_out : ∀ l ∈ node.outgoing_links, Reaches g seeds (h + 1) l :=
              fun l hl => Reaches.step p l h node hp.2 hlook (Or.inl hl)
            have hreach_in : ∀ l ∈ node.incoming_links, Reaches g seeds (h + 1) l :=
              fun l hl => Reaches.step p l h node hp.2 hlook (Or.inr hl)
            have hh1 : 1 ≤ h + 1 := Nat.succ_le_succ (Nat.zero_le h)
            have hhm : h + 1 ≤ maxHops := Nat.succ_le_of_lt (Nat.lt_of_not_le hhop)
            obtain ⟨q1, a1, s1, _⟩ :=
              expandLinks_inv node.outgoing_links (h + 1) hreach_out hh1 hhm vis qt acc
                hqt hacc hseeds
            obtain ⟨q2, a2, s2, _⟩ :=
              expandLinks_inv node.incoming_links (h + 1) hreach_in hh1 hhm _ _ _ q1 a1 s1
            exact ih _ _ _ q2 a2 s2

/-- Invariants of the collected `related_docs` list. -/
theorem relatedDocs_inv (g : List (String × GraphNode)) (seeds : List String)
    (maxHops maxRes : Nat) :
    ((relatedDocs g seeds maxHops maxRes).map Prod.fst).Nodup ∧
      ∀ ph ∈ relatedDocs g seeds maxHops maxRes,
        1 ≤ ph.2 ∧ ph.2 ≤ maxHops ∧ Reaches g seeds ph.2 ph.1 ∧ ph.1 ∉ seeds := by
  have hq : QueueInv g seeds maxHops (seeds.map fun s => (s, 0)) := by
    intro ph hph
    obtain ⟨s, hs, rfl⟩ := List.mem_map.mp hph
    exact ⟨Nat.zero_le _, Reaches.seed s hs⟩
  have hacc : AccInv g seeds maxHops seeds [] := by
    constructor
    · intro ph hph
      exact absurd hph (List.not_mem_nil ph)
    · simp
  obtain ⟨vis2, hinv⟩ :=
    travGo_inv (travFuel g seeds) (seeds.map fun s => (s, 0)) seeds [] hq hacc
      (fun s hs => hs)
  refine ⟨hinv.2, fun ph hph => ?_⟩
  obtain ⟨a1, a2, a3, a4, _⟩ := hinv.1 ph hph
  exact ⟨a1, a2, a3, a4⟩

/-- C5: during every graph traversal a document is recorded at most once —
the document list collected by the loop has pairwise distinct paths, so the
hop distance stored for a document is the one at which it was first reached,
and a path already in the visited set (including every seed) is never
recorded again at a larger hop count; every recorded hop count is a genuine
undirected link distance from a seed. -/
theorem c5_visited_at_most_once (g : List (String × GraphNode)) (seeds : List String)
    (maxHops maxRes : Nat) :
    ((relatedDocs g seeds maxHops maxRes).map Prod.fst).Nodup ∧
      ∀ ph ∈ relatedDocs g seeds maxHops maxRes,
        Reaches g seeds ph.2 ph.1 ∧ ph.1 ∉ seeds := by
  obtain ⟨hnd, hprops⟩ := relatedDocs_inv g seeds maxHops maxRes
  refine ⟨hnd, fun ph hph => ?_⟩
  obtain ⟨_, _, a3, a4⟩ := hprops ph hph
  exact ⟨a3, a4⟩

/-- C5 witness: the uniqueness invariant applied to the concrete graph, at
the recorded document b reached in one hop. -/
theorem c5_visited_at_most_once_witness :
    ((relatedDocs gEx ["a"] 2 10).map Prod.fst).Nodup ∧
      (Reaches gEx ["a"] 1 "b" ∧ "b" ∉ ["a"]) :=
  ⟨(c5_visited_at_most_once gEx ["a"] 2 10).1,
    (c5_visited_at_most_once gEx ["a"] 2 10).2 ("b", 1) (by decide)⟩

/-! Chunk-fetch phase lemmas. -/

theorem collectionGet_path {store : List StoredChunk} {p : String} {n : Nat}
    {ch : StoredChunk} (h : ch ∈ collectionGet store p n) : ch.metadata.file_path = p := by
  have hf : ch ∈ store.filter fun ch => ch.metadata.file_path = p :=
    List.take_subset _ _ h
  exact of_decide_eq_true (List.mem_filter.mp hf).2

theorem collectionGet_length_le (store : List StoredChunk) (p : String) (n : Nat) :
    (collectionGet store p n).length ≤ n :=
  List.length_take_le _ _

theorem flatMap_length_le {α β : Type} (k : Nat) :
    ∀ (l : List α) (f : α → List β), (∀ x ∈ l, (f x).length ≤ k) →
      (l.flatMap f).length ≤ k * l.length := by
  intro l
  induction l with
  | nil => intro f _; simp
  | cons x t ih =>
    intro f hf
    rw [List.flatMap_cons, List.length_append, List.length_cons, Nat.mul_succ]
    have h1 := hf x (List.mem_cons_self x t)
    have h2 := ih f fun y hy => hf y (List.mem_cons_of_mem x hy)
    omega

theorem flatMap_group_filter {β : Type} (keyOf : β → String) :
    ∀ (l : List (String × Nat)) (f : String × Nat → List β),
      (∀ x ∈ l, ∀ d ∈ f x, keyOf d = x.1) → (∀ x ∈ l, (f x).length ≤ 3) →
      (l.map Prod.fst).Nodup →
      ∀ p, ((l.flatMap f).filter fun d => keyOf d = p).length ≤ 3 := by
  intro l
  induction l with
  | nil => intro f _ _ _ p; simp
  | cons x t ih =>
    intro f hkey hlen hnd p
    rw [List.map_cons, List.nodup_cons] at hnd
    rw [List.flatMap_cons, List.filter_append, List.length_append]
    by_cases hp : p = x.1
    · have hrest : ((t.flatMap f).filter fun d => keyOf d = p) = [] := by
        rw [List.filter_eq_nil_iff]
        intro d hd
        obtain ⟨y, hy, hdy⟩ := List.mem_flatMap.mp hd
        have hkd := hkey y (List.mem_cons_of_mem x hy) d hdy
        intro hcon
        have hy1 : y.1 = x.1 := hkd.symm.trans ((of_decide_eq_true hcon).trans hp)
        exact hnd.1 (hy1 ▸ List.mem_map_of_mem Prod.fst hy)
      rw [hrest, List.length_nil]
      have := List.length_filter_le (fun d => decide (keyOf d = p)) (f x)
      have hx := hlen x (List.mem_cons_self x t)
      omega
    · have hhead : ((f x).filter fun d => keyOf d = p) = [] := by
        rw [List.filter_eq_nil_iff]
        intro d hd hcon
        exact hp ((of_decide_eq_true hcon).symm.trans
          (hkey x (List.mem_cons_self x t) d hd))
      rw [hhead, List.length_nil]
      have := ih f (fun y hy => hkey y (List.mem_cons_of_mem x hy))
        (fun y hy => hlen y (List.mem_cons_of_mem x hy)) hnd.2 p
      omega

theorem graphTraversal_mem {g : List (String × GraphNode)} {seeds : List String}
    {maxHops maxRes : Nat} {store : List StoredChunk} {d : RetrievedDoc}
    (hd : d ∈ graphTraversal g seeds maxHops maxRes store) :
    ∃ ph ∈ (relatedDocs g seeds maxHops maxRes).take maxRes,
      ∃ ch ∈ collectionGet store ph.1 3,
        d =
          { content := ch.document
            file_path := ch.metadata.file_path
            doc_title := ch.metadata.doc_title
            sectionName := ch.metadata.sectionName.getD ""
            score := 1 / ((ph.2 : ℚ) + 1)
            retrieval_method := "graph"
            metadata := ch.metadata } := by
  rw [graphTraversal] at hd
  obtain ⟨ph, hph, hmem⟩ := List.mem_flatMap.mp hd
  obtain ⟨ch, hch, hdef⟩ := List.mem_map.mp hmem
  exact ⟨ph, hph, ch, hch, hdef.symm⟩

/-- C3 counterexample: with `top_k = 1` (traversal bound `2 × top_k = 2`),
the concrete graph and store make `_graph_traversal` return 6 chunk results
— 3 chunks for each of the 2 visited documents — exceeding `2 × top_k`. -/
theorem c3_counterexample :
    (graphTraversal gEx ["a"] 2 (2 * 1) storeEx).length = 6 ∧
      ¬ ((graphTraversal gEx ["a"] 2 (2 * 1) storeEx).length ≤ 2 * 1) := by decide

/-- C3 amended: the graph-traversal step of `retrieve` visits at most
`2 × top_k` documents, none farther than `max_hops` undirected link hops
from a seed, and fetches at most 3 chunks per visited document — hence it
returns at most `3 × (2 × top_k)` chunk results (not `2 × top_k` as
claimed), at most 3 per document; every returned chunk is tagged `graph`
and scored `1 / (hop_distance + 1)` for its document's recorded hop
distance. -/
theorem c3_amended (g : List (String × GraphNode)) (seeds : List String)
    (maxHops topK : Nat) (store : List StoredChunk) :
    (graphTraversal g seeds maxHops (2 * topK) store).length ≤ 3 * (2 * topK) ∧
    (∀ p, ((graphTraversal g seeds maxHops (2 * topK) store).filter
        fun d => d.file_path = p).length ≤ 3) ∧
    ∀ d ∈ graphTraversal g seeds maxHops (2 * topK) store,
      d.retrieval_method = "graph" ∧
      ∃ h, 1 ≤ h ∧ h ≤ maxHops ∧ Reaches g seeds h d.file_path ∧
        d.score = 1 / ((h : ℚ) + 1) := by
  obtain ⟨hnd, hprops⟩ := relatedDocs_inv g seeds maxHops (2 * topK)
  refine ⟨?_, ?_, ?_⟩
  · rw [graphTraversal]
    refine le_trans (flatMap_length_le 3 _ _ ?_) ?_
    · intro x _
      rw [List.length_map]
      exact collectionGet_length_le store x.1 3
    · exact Nat.mul_le_mul_left 3 (List.length_take_le _ _)
  · intro p
    rw [graphTraversal]
    refine flatMap_group_filter (fun d : RetrievedDoc => d.file_path) _ _ ?_ ?_ ?_ p
    · intro x _ d hd
      obtain ⟨ch, hch, rfl⟩ := List.mem_map.mp hd
      exact collectionGet_path hch
    · intro x _
      rw [List.length_map]
      exact collectionGet_length_le store x.1 3
    · rw [List.map_take]
      exact (List.take_sublist _ _).nodup hnd
  · intro d hd
    obtain ⟨ph, hph, ch, hch, rfl⟩ := graphTraversal_mem hd
    have hrel : ph ∈ relatedDocs g seeds maxHops (2 * topK) := List.take_subset _ _ hph
    obtain ⟨a1, a2, a3, _⟩ := hprops ph hrel
    refine ⟨rfl, ph.2, a1, a2, ?_, rfl⟩
    rw [collectionGet_path hch]
    exact a3

/-- First chunk of document b, as the traversal returns it. -/
def dEx : RetrievedDoc :=
  { content := "bzero", file_path := "b", doc_title := "B", sectionName := "", score := 1 / 2,
    retrieval_method := "graph",
    metadata := { file_path := "b", doc_title := "B", sectionName := none, chunk_id := some "b0" } }

/-- C3 amended witness: the bounds and per-chunk facts instantiated on the
concrete graph and store, which make the traversal return six chunks drawn
from the two linked documents. -/
theorem c3_amended_witness :
    ((graphTraversal gEx ["a"] 2 (2 * 1) storeEx).length ≤ 3 * (2 * 1) ∧
      (∀ p, ((graphTraversal gEx ["a"] 2 (2 * 1) storeEx).filter
          fun d => d.file_path = p).length ≤ 3) ∧
      ∀ d ∈ graphTraversal gEx ["a"] 2 (2 * 1) storeEx,
        d.retrieval_method = "graph" ∧
        ∃ h, 1 ≤ h ∧ h ≤ 2 ∧ Reaches gEx ["a"] h d.file_path ∧
          d.score = 1 / ((h : ℚ) + 1)) ∧
    (graphTraversal gEx ["a"] 2 (2 * 1) storeEx).map (fun d => d.file_path) =
      ["b", "b", "b", "c", "c", "c"] :=
  ⟨c3_amended gEx ["a"] 2 1 storeEx, by decide⟩

/-! Combine/deduplicate lemmas. -/

theorem chunkId_hybridize (d : RetrievedDoc) : chunkId (hybridize d) = chunkId d := rfl

theorem dedupPass_out_sub (tr : RetrievedDoc → RetrievedDoc) :
    ∀ (l : List RetrievedDoc) (seen : List String),
      ∀ e ∈ (dedupPass tr l seen).2, ∃ d0 ∈ l, e = tr d0 ∧ chunkId d0 ∉ seen := by
  intro l
  induction l with
  | nil => intro seen e he; exact absurd he (List.not_mem_nil e)
  | cons d t ih =>
    intro seen e he
    by_cases hd : chunkId d ∈ seen
    · rw [dedupPass, if_pos hd] at he
      obtain ⟨d0, hd0, hed0, hns⟩ := ih seen e he
      exact ⟨d0, List.mem_cons_of_mem d hd0, hed0, hns⟩
    · rw [dedupPass, if_neg hd] at he
      rcases List.mem_cons.mp he with rfl | he2
      · exact ⟨d, List.mem_cons_self d t, rfl, hd⟩
      · obtain ⟨d0, hd0, hed0, hns⟩ := ih (chunkId d :: seen) e he2
        exact ⟨d0, List.mem_cons_of_mem d hd0, hed0,
          fun hcon => hns (List.mem_cons_of_mem _ hcon)⟩

theorem dedupPass_seen_mono (tr : RetrievedDoc → RetrievedDoc) :
    ∀ (l : List RetrievedDoc) (seen : List String) (x : String),
      x ∈ seen → x ∈ (dedupPass tr l seen).1 := by
  intro l
  induction l with
  | nil => intro seen x hx; exact hx
  | cons d t ih =>
    intro seen x hx
    by_cases hd : chunkId d ∈ seen
    · rw [dedupPass, if_pos hd]
      exact ih seen x hx
    · rw [dedupPass, if_neg hd]
      exact ih _ x (List.mem_cons_of_mem _ hx)

theorem dedupPass_seen_of_mem (tr : RetrievedDoc → RetrievedDoc) :
    ∀ (l : List RetrievedDoc) (seen : List String) (d : RetrievedDoc),
      d ∈ l → chunkId d ∈ (dedupPass tr l seen).1 := by
  intro l
  induction l with
  | nil => intro seen d hd; exact absurd hd (List.not_mem_nil d)
  | cons d0 t ih =>
    intro seen d hd
    by_cases h0 : chunkId d0 ∈ seen
    · rw [dedupPass, if_pos h0]
      rcases List.mem_cons.mp hd with rfl | hd2
      · exact dedupPass_seen_mono tr t seen _ h0
      · exact ih seen d hd2
    · rw [dedupPass, if_neg h0]
      rcases List.mem_cons.mp hd with rfl | hd2
      · exact dedupPass_seen_mono tr t _ _ (List.mem_cons_self _ _)
      · exact ih _ d hd2

theorem dedupPass_seen_sub (tr : RetrievedDoc → RetrievedDoc) :
    ∀ (l : List RetrievedDoc) (seen : List String) (x : String),
      x ∈ (dedupPass tr l seen).1 → x ∈ seen ∨ ∃ d ∈ l, chunkId d = x := by
  intro l
  induction l with
  | nil => intro seen x hx; exact Or.inl hx
  | cons d t ih =>
    intro seen x hx
    by_cases hd : chunkId d ∈ seen
    · rw [dedupPass, if_pos hd] at hx
      rcases ih seen x hx with hx | ⟨d0, hd0, hid⟩
      · exact Or.inl hx
      · exact Or.inr ⟨d0, List.mem_cons_of_mem d hd0, hid⟩
    · rw [dedupPass, if_neg hd] at hx
      rcases ih _ x hx with hx | ⟨d0, hd0, hid⟩
      · rcases List.mem_cons.mp hx with rfl | hx2
        · exact Or.inr ⟨d, List.mem_cons_self d t, rfl⟩
        · exact Or.inl hx2
      · exact Or.inr ⟨d0, List.mem_cons_of_mem d hd0, hid⟩

theorem dedupPass_find (tr : RetrievedDoc → RetrievedDoc)
    (htr : ∀ x, chunkId (tr x) = chunkId x) (cid : String) :
    ∀ (l : List RetrievedDoc) (seen : List String), cid ∉ seen →
      List.find? (fun x => chunkId x == cid) (dedupPass tr l seen).2 =
        (List.find? (fun x => chunkId x == cid) l).map tr := by
  intro l
  induction l with
  | nil => intro seen _; rfl
  | cons d t ih =>
    intro seen hseen
    by_cases hid : chunkId d = cid
    · have hd : chunkId d ∉ seen := hid ▸ hseen
      have hpos2 : (chunkId (tr d) == cid) = true := by simp [(htr d).trans hid]
      have hpos1 : (chunkId d == cid) = true := by simp [hid]
      rw [dedupPass, if_neg hd]
      show List.find? (fun x => chunkId x == cid)
          (tr d :: (dedupPass tr t (chunkId d :: seen)).2) =
        Option.map tr (List.find? (fun x => chunkId x == cid) (d :: t))
      rw [@List.find?_cons_of_pos _ (fun x => chunkId x == cid) (tr d) _ hpos2,
        @List.find?_cons_of_pos _ (fun x => chunkId x == cid) d _ hpos1]
      rfl
    · have hneg1 : ¬ (chunkId d == cid) = true := by simp [hid]
      by_cases hd : chunkId d ∈ seen
      · rw [dedupPass, if_pos hd,
          @List.find?_cons_of_neg _ (fun x => chunkId x == cid) d _ hneg1]
        exact ih seen hseen
      · have hneg2 : ¬ (chunkId (tr d) == cid) = true := by simp [htr d, hid]
        have hseen2 : cid ∉ chunkId d :: seen := by
          intro hcon
          rcases List.mem_cons.mp hcon with h1 | h1
          · exact hid h1.symm
          · exact hseen h1
        rw [dedupPass, if_neg hd]
        show List.find? (fun x => chunkId x == cid)
            (tr d :: (dedupPass tr t (chunkId d :: seen)).2) =
          Option.map tr (List.find? (fun x => chunkId x == cid) (d :: t))
        rw [@List.find?_cons_of_neg _ (fun x => chunkId x == cid) (tr d) _ hneg2,
          @List.find?_cons_of_neg _ (fun x => chunkId x == cid) d _ hneg1]
        exact ih _ hseen2

theorem dedupPass_covers (tr : RetrievedDoc → RetrievedDoc)
    (htr : ∀ x, chunkId (tr x) = chunkId x) :
    ∀ (l : List RetrievedDoc) (seen : List String) (d0 : RetrievedDoc),
      d0 ∈ l → chunkId d0 ∉ seen →
      ∃ e ∈ (dedupPass tr l seen).2, chunkId e = chunkId d0 := by
  intro l
  induction l with
  | nil => intro seen d0 hd0 _; exact absurd hd0 (List.not_mem_nil d0)
  | cons d t ih =>
    intro seen d0 hd0 hns
    by_cases hd : chunkId d ∈ seen
    · rw [dedupPass, if_pos hd]
      rcases List.mem_cons.mp hd0 with rfl | hd2
      · exact absurd hd hns
      · exact ih seen d0 hd2 hns
    · rw [dedupPass, if_neg hd]
      by_cases heq : chunkId d0 = chunkId d
      · exact ⟨tr d, List.mem_cons_self _ _, (htr d).trans heq.symm⟩
      · rcases List.mem_cons.mp hd0 with rfl | hd2
        · exact absurd rfl heq
        · obtain ⟨e, he, hid⟩ := ih (chunkId d :: seen) d0 hd2 (by
            intro hcon
            rcases List.mem_cons.mp hcon with h1 | h1
            · exact heq h1
            · exact hns h1)
          exact ⟨e, List.mem_cons_of_mem _ he, hid⟩

theorem find?_append_left {α : Type} {p : α → Bool} {l1 : List α} (l2 : List α) {x : α}
    (h : List.find? p l1 = some x) : List.find? p (l1 ++ l2) = some x := by
  induction l1 with
  | nil => simp [List.find?] at h
  | cons a t ih =>
    rcases hp : p a with _ | _
    · rw [List.find?_cons_of_neg _ (by simp [hp])] at h
      rw [List.cons_append, List.find?_cons_of_neg _ (by simp [hp])]
      exact ih h
    · rw [List.find?_cons_of_pos _ hp] at h
      rw [List.cons_append, List.find?_cons_of_pos _ hp]
      exact h

/-- C4: in `_combine_results`, semantic results are inserted first and a
chunk id already present is never overwritten (the final entry for any id
occurring in the semantic list is that list's first entry for it, keeping
the semantic score and tag); every other output entry is a graph result
whose unseen chunk id was added with its score multiplied by exactly 0.8
and its tag changed to `hybrid`; and every graph result whose chunk id is
absent from the semantic list contributes a `hybrid` entry for that id. -/
theorem c4_combine_dedup (s g : List RetrievedDoc)
    (hsem : ∀ d ∈ s, d.retrieval_method = "semantic") :
    (∀ cid d, List.find? (fun x => chunkId x == cid) s = some d →
      List.find? (fun x => chunkId x == cid) (combineResults s g) = some d ∧
        d.retrieval_method = "semantic") ∧
    (∀ e ∈ combineResults s g,
      e ∈ s ∨
        ∃ d0 ∈ g, e.retrieval_method = "hybrid" ∧ e.score = d0.score * (4 / 5) ∧
          chunkId e = chunkId d0 ∧
          List.find? (fun x => chunkId x == chunkId d0) s = none) ∧
    (∀ d0 ∈ g, List.find? (fun x => chunkId x == chunkId d0) s = none →
      ∃ e ∈ combineResults s g, chunkId e = chunkId d0 ∧
        e.retrieval_method = "hybrid") := by
  refine ⟨?_, ?_, ?_⟩
  · intro cid d hfind
    have hout1 :
        List.find? (fun x => chunkId x == cid) (dedupPass id s []).2 = some d := by
      rw [dedupPass_find id (fun x => rfl) cid s [] (List.not_mem_nil cid), hfind]
      rfl
    constructor
    · rw [combineResults]
      exact find?_append_left _ hout1
    · exact hsem d (List.mem_of_find?_eq_some hfind)
  · intro e he
    rw [combineResults] at he
    rcases List.mem_append.mp he with he | he
    · obtain ⟨d0, hd0, rfl, _⟩ := dedupPass_out_sub id s [] e he
      exact Or.inl hd0
    · obtain ⟨d0, hd0, rfl, hns⟩ := dedupPass_out_sub hybridize g (dedupPass id s []).1 e he
      refine Or.inr ⟨d0, hd0, rfl, rfl, rfl, ?_⟩
      rw [List.find?_eq_none]
      intro x hx hcon
      have hxid : chunkId x = chunkId d0 := by simpa using hcon
      exact hns (hxid ▸ dedupPass_seen_of_mem id s [] x hx)
  · intro d0 hd0 hnone
    have hns : chunkId d0 ∉ (dedupPass id s []).1 := by
      intro hcon
      rcases dedupPass_seen_sub id s [] _ hcon with h1 | ⟨d1, hd1, hid1⟩
      · exact absurd h1 (List.not_mem_nil _)
      · rw [List.find?_eq_none] at hnone
        exact hnone d1 hd1 (by simp [hid1])
    obtain ⟨e, he, hid⟩ := dedupPass_covers hybridize chunkId_hybridize g _ d0 hd0 hns
    obtain ⟨d1, _, rfl, _⟩ := dedupPass_out_sub hybridize g _ e he
    refine ⟨hybridize d1, ?_, hid, rfl⟩
    rw [combineResults]
    exact List.mem_append_right _ he

/-- C4 witness: combining one semantic result with a duplicate-id graph
result and a fresh graph result keeps the semantic entry for the shared id,
with its score and tag. -/
theorem c4_combine_dedup_witness :
    List.find? (fun x => chunkId x == "x0")
        (combineResults [semEx] [graphDupEx, graphNewEx]) = some semEx ∧
      semEx.retrieval_method = "semantic" :=
  (c4_combine_dedup [semEx] [graphDupEx, graphNewEx] (by decide)).1 "x0" semEx (by rfl)

/-- C9: graph traversal never returns a seed document (every result is at
hop distance at least 1), so every graph-contributed chunk has score at most
1/2 before fusion, and every `hybrid`-tagged entry of the combined set has
score at most 2/5 = 0.8 × 1/2 after the penalty. -/
theorem c9_seed_exclusion_and_score_cap (g : List (String × GraphNode))
    (seeds : List String) (maxHops topK : Nat) (store : List StoredChunk)
    (semantic : List RetrievedDoc)
    (hsem : ∀ d ∈ semantic, d.retrieval_method = "semantic") :
    (∀ d ∈ graphTraversal g seeds maxHops (2 * topK) store,
      d.file_path ∉ seeds ∧ d.score ≤ 1 / 2) ∧
    ∀ e ∈ combineResults semantic (graphTraversal g seeds maxHops (2 * topK) store),
      e.retrieval_method = "hybrid" → e.score ≤ 2 / 5 := by
  obtain ⟨_, hprops⟩ := relatedDocs_inv g seeds maxHops (2 * topK)
  have hgraph : ∀ d ∈ graphTraversal g seeds maxHops (2 * topK) store,
      d.file_path ∉ seeds ∧ d.score ≤ 1 / 2 := by
    intro d hd
    obtain ⟨ph, hph, ch, hch, rfl⟩ := graphTraversal_mem hd
    have hrel : ph ∈ relatedDocs g seeds maxHops (2 * topK) := List.take_subset _ _ hph
    obtain ⟨a1, _, _, a4⟩ := hprops ph hrel
    constructor
    · rw [collectionGet_path hch]
      exact a4
    · have h2 : (2 : ℚ) ≤ (ph.2 : ℚ) + 1 := by
        have : (1 : ℚ) ≤ (ph.2 : ℚ) := by exact_mod_cast a1
        linarith
      have := one_div_le_one_div_of_le (by norm_num : (0 : ℚ) < 2) h2
      simpa using this
  refine ⟨hgraph, ?_⟩
  intro e he hhyb
  rw [combineResults] at he
  rcases List.mem_append.mp he with he | he
  · obtain ⟨d0, hd0, hed0, _⟩ := dedupPass_out_sub id semantic [] e he
    rw [hed0] at hhyb
    simp only [id_eq] at hhyb
    exact absurd ((hsem d0 hd0).symm.trans hhyb) (by decide)
  · obtain ⟨d0, hd0, rfl, _⟩ :=
      dedupPass_out_sub hybridize (graphTraversal g seeds maxHops (2 * topK) store)
        (dedupPass id semantic []).1 e he
    have hsc := (hgraph d0 hd0).2
    have : d0.score * (4 / 5) ≤ (1 / 2 : ℚ) * (4 / 5) :=
      mul_le_mul_of_nonneg_right hsc (by norm_num)
    calc (hybridize d0).score = d0.score * (4 / 5) := rfl
      _ ≤ (1 / 2 : ℚ) * (4 / 5) := this
      _ = 2 / 5 := by norm_num

/-- C9 witness: the seed-exclusion and score-cap facts instantiated on the
concrete graph, store and semantic result; the combined set consists of the
semantic entry followed by six `hybrid` entries, none for the seed. -/
theorem c9_seed_exclusion_and_score_cap_witness :
    ((∀ d ∈ graphTraversal gEx ["a"] 2 (2 * 1) storeEx,
        d.file_path ∉ ["a"] ∧ d.score ≤ 1 / 2) ∧
      ∀ e ∈ combineResults [semEx] (graphTraversal gEx ["a"] 2 (2 * 1) storeEx),
        e.retrieval_method = "hybrid" → e.score ≤ 2 / 5) ∧
    (combineResults [semEx] (graphTraversal gEx ["a"] 2 (2 * 1) storeEx)).map
        (fun e => (e.file_path, e.retrieval_method)) =
      [("a", "semantic"), ("b", "hybrid"), ("b", "hybrid"), ("b", "hybrid"),
        ("c", "hybrid"), ("c", "hybrid"), ("c", "hybrid")] :=
  ⟨c9_seed_exclusion_and_score_cap gEx ["a"] 2 1 storeEx [semEx] (by decide), by decide⟩

end DocRag
